import Mathlib

/-!
Shallow embedding of the pgxtypefaster hstore codec (text parser, binary
reader, text/binary writers, database/sql adapters) over byte lists, with
theorems checking the specification's claims.

Go strings and byte slices are modeled as `List Nat` (one entry per byte).
Go's `int` is modeled as `Int` (64-bit overflow never matters at the sizes
involved); 32-bit wrap-around is modeled explicitly with `% 2^32`.
Go maps are modeled as association lists together with the Go map-update
semantics (`mapSet`): theorems quantify over the association list, which
also covers Go's unspecified map iteration order.
-/

namespace Pgxtypefaster

/-- A Go string / byte slice: a list of byte values. -/
abbrev GoStr := List Nat

/-- pgtype.Text: a string together with a validity flag (false = SQL NULL). -/
structure PText where
  string : GoStr
  valid : Bool
deriving DecidableEq

/-- Hstore = map[string]pgtype.Text, modeled as an association list. -/
abbrev Hstore := List (GoStr × PText)

/-- HstoreCompat = map[string]*string: a nil pointer is `none`. -/
abbrev HstoreCompat := List (GoStr × Option GoStr)

/-- Go map assignment m[k] = v: update in place if the key is present,
otherwise add the entry. -/
def mapSet {α : Type} : List (GoStr × α) → GoStr → α → List (GoStr × α)
  | [], k, v => [(k, v)]
  | (k', v') :: rest, k, v =>
      if k' = k then (k, v) :: rest else (k', v') :: mapSet rest k v

/-- Go map read m[k]. -/
def mapGet {α : Type} : List (GoStr × α) → GoStr → Option α
  | [], _ => none
  | (k', v') :: rest, k => if k' = k then some v' else mapGet rest k

/-- Keys of the mapping are pairwise distinct. -/
def uniqueKeys {α : Type} (h : List (GoStr × α)) : Prop :=
  h.Pairwise (fun a b => a.1 ≠ b.1)

/-- Every absent value carries the empty string, the canonical form
`pgtype.Text{String: "", Valid: false}` produced by decoding. -/
def canonicalAbsents (h : Hstore) : Prop :=
  ∀ p ∈ h, p.2.valid = false → p.2.string = []

/-- No key or value byte is the NUL byte 0. -/
def noNulBytes (h : Hstore) : Prop :=
  ∀ p ∈ h, 0 ∉ p.1 ∧ 0 ∉ p.2.string

/-- The HstoreCompat view of an Hstore value (pointer-style values). -/
def toCompat (h : Hstore) : HstoreCompat :=
  h.map (fun p => (p.1, if p.2.valid then some p.2.string else none))

/-- The Hstore view of an HstoreCompat value. -/
def toPT (h : HstoreCompat) : Hstore :=
  h.map (fun p => (p.1, match p.2 with
    | some s => ⟨s, true⟩
    | none => ⟨[], false⟩))

/-- Modelled from the spec: `quoteArrayReplacer` (its definition is not in
the given sources, only its uses) doubles every literal backslash and
escapes every literal double quote with a backslash; no other byte is
changed. Byte 92 is the backslash, byte 34 the double quote. -/
def quoteArrayReplace : GoStr → GoStr
  | [] => []
  | c :: rest =>
      if c = 92 ∨ c = 34 then 92 :: c :: quoteArrayReplace rest
      else c :: quoteArrayReplace rest

/-- Big-endian bytes of a 32-bit integer (two's complement for negatives). -/
def int32be (n : Int) : GoStr :=
  let u := (n % (2 : Int) ^ 32).toNat
  [u / 2 ^ 24 % 256, u / 2 ^ 16 % 256, u / 2 ^ 8 % 256, u % 256]

/-- Modelled from the spec: `pgio.AppendInt32` (from the repository's
internal pgio package, not in the given sources) appends the big-endian
32-bit two's complement bytes of the value. -/
def appendInt32 (buf : GoStr) (n : Int) : GoStr :=
  buf ++ int32be n

/-- Go conversion int -> int32: wrap to the 32-bit two's complement range. -/
def toInt32 (n : Int) : Int :=
  (n + 2 ^ 31) % 2 ^ 32 - 2 ^ 31

/-- binary.BigEndian.Uint32(src[rp:]) followed by the Go conversions
int(int32(..)): a signed 32-bit big-endian read at offset rp. -/
def readInt32 (src : GoStr) (rp : Nat) : Int :=
  let u : Nat := src.getD rp 0 * 2 ^ 24 + src.getD (rp + 1) 0 * 2 ^ 16 +
    src.getD (rp + 2) 0 * 2 ^ 8 + src.getD (rp + 3) 0
  if u < 2 ^ 31 then (u : Int) else (u : Int) - 2 ^ 32

/-- Go string slicing s[lo:hi]: `none` models the run-time bounds panic
(raised unless 0 ≤ lo ≤ hi ≤ len s). -/
def goSlice (s : GoStr) (lo : Nat) (hi : Int) : Option GoStr :=
  if (lo : Int) ≤ hi ∧ hi ≤ (s.length : Int) then
    some ((s.drop lo).take (hi - lo).toNat)
  else none

/-! ### Binary encoders (encodePlanHstoreCodecBinary.Encode and the
HstoreCompat copy) -/

/-- The per-pair loop of encodePlanHstoreCodecBinary.Encode. -/
def encodeBinaryPairs : Hstore → GoStr → GoStr
  | [], buf => buf
  | (k, v) :: rest, buf =>
      let buf1 := appendInt32 buf (toInt32 k.length) ++ k
      let buf2 :=
        if v.valid then appendInt32 buf1 (toInt32 v.string.length) ++ v.string
        else appendInt32 buf1 (-1)
      encodeBinaryPairs rest buf2

/-- encodePlanHstoreCodecBinary.Encode: `none` input is the nil Hstore and
yields the nil buffer (the wire NULL signal). -/
def encodePlanHstoreCodecBinary_Encode (value : Option Hstore) (buf : GoStr) :
    Option GoStr :=
  match value with
  | none => none
  | some h => some (encodeBinaryPairs h (appendInt32 buf (toInt32 h.length)))

/-- The per-pair loop of encodePlanHstoreCompatCodecBinary.Encode. -/
def encodeBinaryCompatPairs : HstoreCompat → GoStr → GoStr
  | [], buf => buf
  | (k, v) :: rest, buf =>
      let buf1 := appendInt32 buf (toInt32 k.length) ++ k
      let buf2 :=
        match v with
        | none => appendInt32 buf1 (-1)
        | some s => appendInt32 buf1 (toInt32 s.length) ++ s
      encodeBinaryCompatPairs rest buf2

/-- encodePlanHstoreCompatCodecBinary.Encode. -/
def encodePlanHstoreCompatCodecBinary_Encode (value : Option HstoreCompat)
    (buf : GoStr) : Option GoStr :=
  match value with
  | none => none
  | some h => some (encodeBinaryCompatPairs h (appendInt32 buf (toInt32 h.length)))

/-! ### Text encoders (encodePlanHstoreCodecText.Encode and the
HstoreCompat copy). Byte 44 is the comma, 32 the space, 34 the double
quote, 61 '=', 62 '>', and 78 85 76 76 spell NULL. -/

/-- The per-pair loop of encodePlanHstoreCodecText.Encode, with the
firstPair flag. -/
def encodeTextPairs : Hstore → GoStr → Bool → GoStr
  | [], buf, _ => buf
  | (k, v) :: rest, buf, firstPair =>
      let buf1 := if firstPair then buf else buf ++ [44, 32]
      let buf2 := buf1 ++ [34] ++ quoteArrayReplace k ++ [34] ++ [61, 62]
      let buf3 :=
        if v.valid then buf2 ++ [34] ++ quoteArrayReplace v.string ++ [34]
        else buf2 ++ [78, 85, 76, 76]
      encodeTextPairs rest buf3 false

/-- encodePlanHstoreCodecText.Encode. -/
def encodePlanHstoreCodecText_Encode (value : Option Hstore) (buf : GoStr) :
    Option GoStr :=
  match value with
  | none => none
  | some h => some (encodeTextPairs h buf true)

/-- The per-pair loop of encodePlanHstoreCompatCodecText.Encode. -/
def encodeTextCompatPairs : HstoreCompat → GoStr → Bool → GoStr
  | [], buf, _ => buf
  | (k, v) :: rest, buf, firstPair =>
      let buf1 := if firstPair then buf else buf ++ [44, 32]
      let buf2 := buf1 ++ [34] ++ quoteArrayReplace k ++ [34] ++ [61, 62]
      let buf3 :=
        match v with
        | none => buf2 ++ [78, 85, 76, 76]
        | some s => buf2 ++ [34] ++ quoteArrayReplace s ++ [34]
      encodeTextCompatPairs rest buf3 false

/-- encodePlanHstoreCompatCodecText.Encode. -/
def encodePlanHstoreCompatCodecText_Encode (value : Option HstoreCompat)
    (buf : GoStr) : Option GoStr :=
  match value with
  | none => none
  | some h => some (encodeTextCompatPairs h buf true)

/-! ### Binary readers (scanPlanBinaryHstoreToHstoreScanner.Scan and the
HstoreCompat copy) -/

/-- Outcome of a binary scan: a value, the "hstore incomplete" error
(carrying the full src, as fmt.Errorf("hstore incomplete %v", src) does),
or a run-time panic. -/
inductive ScanOut (α : Type) where
  | ok (v : α) : ScanOut α
  | incomplete (src : GoStr) : ScanOut α
  | panic : ScanOut α
deriving DecidableEq

/-- The pair loop of scanPlanBinaryHstoreToHstoreScanner.Scan.
`kvs` is the shared keyValueString = string(src[4:]), `rp` the read
position in src, and the first argument the number of remaining
iterations. -/
def scanBinaryHstoreLoop (src kvs : GoStr) : Nat → Nat → Hstore → ScanOut Hstore
  | 0, _, acc => .ok acc
  | n + 1, rp, acc =>
      if (src.length : Int) - rp < 4 then .incomplete src else
      let keyLen := readInt32 src rp
      let rp1 := rp + 4
      if (src.length : Int) - rp1 < keyLen then .incomplete src else
      match goSlice kvs (rp1 - 4) ((rp1 : Int) - 4 + keyLen) with
      | none => .panic
      | some key =>
        let rp2 := rp1 + keyLen.toNat
        if (src.length : Int) - rp2 < 4 then .incomplete src else
        let valueLen := readInt32 src rp2
        let rp3 := rp2 + 4
        if 0 ≤ valueLen then
          match goSlice kvs (rp3 - 4) ((rp3 : Int) - 4 + valueLen) with
          | none => .panic
          | some value =>
              scanBinaryHstoreLoop src kvs n (rp3 + valueLen.toNat)
                (mapSet acc key ⟨value, true⟩)
        else
          scanBinaryHstoreLoop src kvs n rp3 (mapSet acc key ⟨[], false⟩)

/-- scanPlanBinaryHstoreToHstoreScanner.Scan: a nil src scans to the nil
Hstore. A negative pair count gives zero loop iterations (Go's
make(map, n) ignores a negative capacity hint). -/
def scanPlanBinaryHstoreToHstoreScanner_Scan (src : Option GoStr) :
    ScanOut (Option Hstore) :=
  match src with
  | none => .ok none
  | some src =>
      if (src.length : Int) < 4 then .incomplete src else
      let pairCount := readInt32 src 0
      match scanBinaryHstoreLoop src (src.drop 4) pairCount.toNat 4 [] with
      | .ok h => .ok (some h)
      | .incomplete e => .incomplete e
      | .panic => .panic

/-- The pair loop of scanPlanBinaryHstoreToHstoreCompatScanner.Scan. -/
def scanBinaryCompatLoop (src kvs : GoStr) :
    Nat → Nat → HstoreCompat → ScanOut HstoreCompat
  | 0, _, acc => .ok acc
  | n + 1, rp, acc =>
      if (src.length : Int) - rp < 4 then .incomplete src else
      let keyLen := readInt32 src rp
      let rp1 := rp + 4
      if (src.length : Int) - rp1 < keyLen then .incomplete src else
      match goSlice kvs (rp1 - 4) ((rp1 : Int) - 4 + keyLen) with
      | none => .panic
      | some key =>
        let rp2 := rp1 + keyLen.toNat
        if (src.length : Int) - rp2 < 4 then .incomplete src else
        let valueLen := readInt32 src rp2
        let rp3 := rp2 + 4
        if 0 ≤ valueLen then
          match goSlice kvs (rp3 - 4) ((rp3 : Int) - 4 + valueLen) with
          | none => .panic
          | some value =>
              scanBinaryCompatLoop src kvs n (rp3 + valueLen.toNat)
                (mapSet acc key (some value))
        else
          scanBinaryCompatLoop src kvs n rp3 (mapSet acc key none)

/-- scanPlanBinaryHstoreToHstoreCompatScanner.Scan. Unlike the Hstore
variant, it runs make([]string, pairCount), which panics when the declared
pair count is negative. -/
def scanPlanBinaryHstoreToHstoreCompatScanner_Scan (src : Option GoStr) :
    ScanOut (Option HstoreCompat) :=
  match src with
  | none => .ok none
  | some src =>
      if (src.length : Int) < 4 then .incomplete src else
      let pairCount := readInt32 src 0
      if pairCount < 0 then .panic else
      match scanBinaryCompatLoop src (src.drop 4) pairCount.toNat 4 [] with
      | .ok h => .ok (some h)
      | .incomplete e => .incomplete e
      | .panic => .panic

/-! ### The hstore text parser (hstoreParser and its consume functions) -/

/-- Errors of the text parser, one constructor per distinct Go error value,
with the payloads the Go error messages carry. -/
inductive PErr where
  /-- consumeExpectedByte at end: "expected c; found end". -/
  | expectedFoundEnd (expected : Nat)
  /-- unexpectedByteErr: "expected e; found a". -/
  | unexpectedByte (actual expected : Nat)
  /-- consumeExpected2 at end: the bare "unexpected end of string". -/
  | unexpectedEndOfString
  /-- errEOSInQuoted: "found end before closing double-quote". -/
  | eosInQuoted
  /-- "unexpected escape in quoted string: found c". -/
  | unexpectedEscape (found : Nat)
  /-- consumeDoubleQuotedOrNull at end: "found end instead of value". -/
  | endInsteadOfValue
  /-- fuel exhaustion of the embedded parse loop; unreachable from
  parseHstore entry states, where the position strictly increases and the
  fuel is the string length plus one. -/
  | fuelExhausted
deriving DecidableEq

/-- strings.IndexByte on a list: first index holding b, if any
(Go returns -1 for `none`). -/
def indexByteAux : GoStr → Nat → Option Nat
  | [], _ => none
  | c :: rest, b => if c = b then some 0 else (indexByteAux rest b).map (· + 1)

/-- strings.IndexByte(s[start:], b), shifted back to an absolute index as
the parser does with `+= p.pos`. -/
def indexByteFrom (s : GoStr) (start : Nat) (b : Nat) : Option Nat :=
  (indexByteAux (s.drop start) b).map (· + start)

/-- hstoreParser: the input, the position, and the cached index of the
next backslash (Go keeps -1 for `none`). -/
structure HSP where
  str : GoStr
  pos : Nat
  nextBackslash : Option Nat
deriving DecidableEq

/-- newHSP. -/
def newHSP (s : GoStr) : HSP :=
  ⟨s, 0, indexByteFrom s 0 92⟩

/-- hstoreParser.atEnd. -/
def HSP.atEnd (p : HSP) : Bool :=
  p.pos ≥ p.str.length

/-- hstoreParser.consume: the next byte and the advanced parser, or `none`
at the end of the string. -/
def HSP.consume (p : HSP) : Option (Nat × HSP) :=
  if p.pos ≥ p.str.length then none
  else some (p.str.getD p.pos 0, ⟨p.str, p.pos + 1, p.nextBackslash⟩)

/-- hstoreParser.consumeExpectedByte. -/
def HSP.consumeExpectedByte (p : HSP) (expectedB : Nat) : Except PErr HSP :=
  match p.consume with
  | none => .error (.expectedFoundEnd expectedB)
  | some (nextB, p1) =>
      if nextB ≠ expectedB then .error (.unexpectedByte nextB expectedB)
      else .ok p1

/-- hstoreParser.consumeExpected2: two expected bytes, or the generic
"unexpected end of string" error, or an expected/found byte error. -/
def HSP.consumeExpected2 (p : HSP) (one two : Nat) : Except PErr HSP :=
  if p.pos + 2 > p.str.length then .error .unexpectedEndOfString
  else if p.str.getD p.pos 0 ≠ one then
    .error (.unexpectedByte (p.str.getD p.pos 0) one)
  else if p.str.getD (p.pos + 1) 0 ≠ two then
    .error (.unexpectedByte (p.str.getD (p.pos + 1) 0) two)
  else .ok ⟨p.str, p.pos + 2, p.nextBackslash⟩

/-- The byte-copying loop of consumeDoubleQuotedWithEscapes, expressed on
the remaining input suffix: it returns the unescaped content and the
suffix after the closing quote. -/
def dqEscLoop : GoStr → Except PErr (GoStr × GoStr)
  | [] => .error .eosInQuoted
  | b :: rest =>
      if b = 34 then .ok ([], rest)
      else if b = 92 then
        match rest with
        | [] => .error .eosInQuoted
        | c :: rest2 =>
            if c = 92 ∨ c = 34 then
              match dqEscLoop rest2 with
              | .error e => .error e
              | .ok sr => .ok (c :: sr.1, sr.2)
            else .error (.unexpectedEscape c)
      else
        match dqEscLoop rest with
        | .error e => .error e
        | .ok sr => .ok (b :: sr.1, sr.2)
termination_by structural l => l

/-- hstoreParser.consumeDoubleQuotedWithEscapes: the builder starts with
str[pos:firstBackslash], the position jumps to the first backslash, and
the loop copies bytes unescaping until the closing quote. -/
def HSP.consumeDoubleQuotedWithEscapes (p : HSP) (firstBackslash : Nat) :
    Except PErr (GoStr × HSP) :=
  match dqEscLoop (p.str.drop firstBackslash) with
  | .error e => .error e
  | .ok sr =>
      .ok ((p.str.drop p.pos).take (firstBackslash - p.pos) ++ sr.1,
        ⟨p.str, p.str.length - sr.2.length, p.nextBackslash⟩)

/-- hstoreParser.consumeDoubleQuoted: fast path when no backslash occurs
before the next double quote, otherwise the escape-aware slow path
followed by recomputing the cached next-backslash index. -/
def HSP.consumeDoubleQuoted (p : HSP) : Except PErr (GoStr × HSP) :=
  match indexByteFrom p.str p.pos 34 with
  | none => .error .eosInQuoted
  | some ndq =>
      match p.nextBackslash with
      | none =>
          .ok ((p.str.drop p.pos).take (ndq - p.pos), ⟨p.str, ndq + 1, none⟩)
      | some nb =>
          if nb > ndq then
            .ok ((p.str.drop p.pos).take (ndq - p.pos),
              ⟨p.str, ndq + 1, some nb⟩)
          else
            match p.consumeDoubleQuotedWithEscapes nb with
            | .error e => .error e
            | .ok sp =>
                .ok (sp.1, ⟨sp.2.str, sp.2.pos,
                  indexByteFrom sp.2.str sp.2.pos 92⟩)

/-- hstoreParser.consumePairSeparator: ", " (bytes 44 32). -/
def HSP.consumePairSeparator (p : HSP) : Except PErr HSP :=
  p.consumeExpected2 44 32

/-- hstoreParser.consumeKVSeparator: "=>" (bytes 61 62). -/
def HSP.consumeKVSeparator (p : HSP) : Except PErr HSP :=
  p.consumeExpected2 61 62

/-- hstoreParser.consumeDoubleQuotedOrNull: the exact unquoted NULL
(bytes 78 85 76 76) parses as the absent value; otherwise a double-quoted
string is required. -/
def HSP.consumeDoubleQuotedOrNull (p : HSP) : Except PErr (PText × HSP) :=
  if p.pos ≥ p.str.length then .error .endInsteadOfValue
  else
    let next := p.str.getD p.pos 0
    if next = 78 then
      match p.consumeExpected2 78 85 with
      | .error e => .error e
      | .ok p1 =>
          match p1.consumeExpected2 76 76 with
          | .error e => .error e
          | .ok p2 => .ok (⟨[], false⟩, p2)
    else if next ≠ 34 then .error (.unexpectedByte next 34)
    else
      match HSP.consumeDoubleQuoted ⟨p.str, p.pos + 1, p.nextBackslash⟩ with
      | .error e => .error e
      | .ok sp => .ok (⟨sp.1, true⟩, sp.2)

/-- The loop of parseHstore, with explicit fuel (the Go loop terminates
because the position strictly increases; parseHstore passes length+1). -/
def parseHstoreLoop : Nat → HSP → Bool → Hstore → Except PErr Hstore
  | 0, _, _, _ => .error .fuelExhausted
  | fuel + 1, p, first, result =>
      if p.pos ≥ p.str.length then .ok result
      else
        match (if first then .ok p else p.consumePairSeparator :
            Except PErr HSP) with
        | .error e => .error e
        | .ok p1 =>
            match p1.consumeExpectedByte 34 with
            | .error e => .error e
            | .ok p2 =>
                match p2.consumeDoubleQuoted with
                | .error e => .error e
                | .ok kp =>
                    match kp.2.consumeKVSeparator with
                    | .error e => .error e
                    | .ok p4 =>
                        match p4.consumeDoubleQuotedOrNull with
                        | .error e => .error e
                        | .ok vp =>
                            parseHstoreLoop fuel vp.2 false
                              (mapSet result kp.1 vp.1)

/-- parseHstore. -/
def parseHstore (s : GoStr) : Except PErr Hstore :=
  parseHstoreLoop (s.length + 1) (newHSP s) true []

/-- The loop of parseHstoreCompat. -/
def parseHstoreCompatLoop :
    Nat → HSP → Bool → HstoreCompat → Except PErr HstoreCompat
  | 0, _, _, _ => .error .fuelExhausted
  | fuel + 1, p, first, result =>
      if p.pos ≥ p.str.length then .ok result
      else
        match (if first then .ok p else p.consumePairSeparator :
            Except PErr HSP) with
        | .error e => .error e
        | .ok p1 =>
            match p1.consumeExpectedByte 34 with
            | .error e => .error e
            | .ok p2 =>
                match p2.consumeDoubleQuoted with
                | .error e => .error e
                | .ok kp =>
                    match kp.2.consumeKVSeparator with
                    | .error e => .error e
                    | .ok p4 =>
                        match p4.consumeDoubleQuotedOrNull with
                        | .error e => .error e
                        | .ok vp =>
                            parseHstoreCompatLoop fuel vp.2 false
                              (mapSet result kp.1
                                (if vp.1.valid then some vp.1.string else none))

/-- parseHstoreCompat: identical loop, storing a nil pointer for an
invalid value and a pointer to the string for a valid one. -/
def parseHstoreCompat (s : GoStr) : Except PErr HstoreCompat :=
  parseHstoreCompatLoop (s.length + 1) (newHSP s) true []

/-- scanPlanTextAnyToHstoreScanner.Scan: nil src scans to the nil Hstore,
otherwise parse the text (scanString never produces a nil map). -/
def scanPlanTextAnyToHstoreScanner_Scan (src : Option GoStr) :
    Except PErr (Option Hstore) :=
  match src with
  | none => .ok none
  | some s =>
      match parseHstore s with
      | .error e => .error e
      | .ok h => .ok (some h)

/-- scanPlanTextAnyToHstoreCompatScanner.Scan. -/
def scanPlanTextAnyToHstoreCompatScanner_Scan (src : Option GoStr) :
    Except PErr (Option HstoreCompat) :=
  match src with
  | none => .ok none
  | some s =>
      match parseHstoreCompat s with
      | .error e => .error e
      | .ok h => .ok (some h)

/-! ### Codec dispatch and the database/sql adapters -/

/-- The two supported wire formats. -/
inductive Fmt where
  | text
  | binary
deriving DecidableEq

/-- The dynamic Go types relevant to the codecs' interface dispatch:
Hstore (or a pointer to it), HstoreCompat (or a pointer to it), or any
other type. -/
inductive GoType where
  | goHstore
  | goHstoreCompat
  | goOther
deriving DecidableEq

/-- Which types satisfy the HstoreValuer interface: only Hstore declares
the HstoreValue method. -/
def implementsHstoreValuer : GoType → Bool
  | .goHstore => true
  | _ => false

/-- Which pointer types satisfy the HstoreCompatScanner interface: only
a pointer to HstoreCompat declares the ScanHstoreCompat method. -/
def ptrImplementsHstoreCompatScanner : GoType → Bool
  | .goHstoreCompat => true
  | _ => false

/-- The encode plans HstoreCodec.PlanEncode can return. -/
inductive EncodePlanH where
  | binaryPlan
  | textPlan
deriving DecidableEq

/-- HstoreCodec.PlanEncode: nil unless the value implements HstoreValuer,
otherwise the plan for the requested format. -/
def HstoreCodec_PlanEncode (format : Fmt) (valueType : GoType) :
    Option EncodePlanH :=
  if implementsHstoreValuer valueType = false then none
  else
    match format with
    | .binary => some .binaryPlan
    | .text => some .textPlan

/-- The scan plans HstoreCompatCodec.PlanScan can return. -/
inductive CompatScanPlan where
  | binaryCompatPlan
  | textCompatPlan
deriving DecidableEq

/-- HstoreCompatCodec.PlanScan: for both formats, a plan exists only when
the target satisfies HstoreCompatScanner. -/
def HstoreCompatCodec_PlanScan (format : Fmt) (target : GoType) :
    Option CompatScanPlan :=
  match format with
  | .binary =>
      if ptrImplementsHstoreCompatScanner target then some .binaryCompatPlan
      else none
  | .text =>
      if ptrImplementsHstoreCompatScanner target then some .textCompatPlan
      else none

/-- Errors of codecScan / DecodeValue. -/
inductive DecodeErr where
  /-- codecScan: "PlanScan did not find a plan". -/
  | planScanNotFound
  /-- a scan plan's type assertion on an incompatible target would panic;
  unreachable in HstoreCompatCodec.DecodeValue. -/
  | typeAssertPanic
deriving DecidableEq

/-- HstoreCompatCodec.DecodeValue: a nil src is nil; otherwise codecScan
plans a scan for a target of type pointer-to-Hstore (the declared local
is `var hstore Hstore`). -/
def HstoreCompatCodec_DecodeValue (format : Fmt) (src : Option GoStr) :
    Except DecodeErr (Option Hstore) :=
  match src with
  | none => .ok none
  | some _ =>
      match HstoreCompatCodec_PlanScan format .goHstore with
      | none => .error .planScanNotFound
      | some _ => .error .typeAssertPanic

/-- The database/sql Scan source: nil, a string, or a value of any other
dynamic type (carrying the type's name for the error message). -/
inductive SqlVal where
  | null
  | str (s : GoStr)
  | other (typeName : String)
deriving DecidableEq

/-- Errors of the database/sql Scan adapters. -/
inductive SqlErr where
  /-- a text parse error is passed through. -/
  | parse (e : PErr)
  /-- fmt.Errorf("cannot scan %T", src): names the concrete type. -/
  | cannotScan (typeName : String)
deriving DecidableEq

/-- Hstore.Scan: nil sets the nil map, a string is parsed as hstore text,
anything else is a "cannot scan" error naming the type. -/
def Hstore_Scan (src : SqlVal) : Except SqlErr (Option Hstore) :=
  match src with
  | .null => .ok none
  | .str s =>
      match parseHstore s with
      | .error e => .error (.parse e)
      | .ok h => .ok (some h)
  | .other t => .error (.cannotScan t)

/-- HstoreCompat.Scan. -/
def HstoreCompat_Scan (src : SqlVal) : Except SqlErr (Option HstoreCompat) :=
  match src with
  | .null => .ok none
  | .str s =>
      match parseHstoreCompat s with
      | .error e => .error (.parse e)
      | .ok h => .ok (some h)
  | .other t => .error (.cannotScan t)

/-- A database/sql Value result: SQL NULL or a string, or a run-time
panic. -/
inductive ValueOut where
  | ok (v : Option GoStr)
  | panic
deriving DecidableEq

/-- Hstore.Value: nil maps to SQL NULL; otherwise
HstoreCodec{}.PlanEncode(.., text, h).Encode(h, nil) and the buffer is
returned as a string (calling a method on a nil plan would panic). -/
def Hstore_Value (h : Option Hstore) : ValueOut :=
  match h with
  | none => .ok none
  | some m =>
      match HstoreCodec_PlanEncode .text .goHstore with
      | none => .panic
      | some .textPlan =>
          match encodePlanHstoreCodecText_Encode (some m) [] with
          | none => .ok none
          | some buf => .ok (some buf)
      | some .binaryPlan =>
          match encodePlanHstoreCodecBinary_Encode (some m) [] with
          | none => .ok none
          | some buf => .ok (some buf)

/-- HstoreCompat.Value: nil maps to SQL NULL; otherwise the source calls
HstoreCodec{}.PlanEncode(.., text, h) — the Hstore codec, not the
HstoreCompat one — whose HstoreValuer check fails for an HstoreCompat
value, so the plan is nil and calling Encode on it panics. -/
def HstoreCompat_Value (h : Option HstoreCompat) : ValueOut :=
  match h with
  | none => .ok none
  | some _ =>
      match HstoreCodec_PlanEncode .text .goHstoreCompat with
      | none => .panic
      | some _ => .panic

/-! ### Spec-side definitions, written from the specification's words,
for the refinement claims about the writers and for stating parse
results. -/

/-- Spec wording for one text-format pair: the key and (when present) the
value each unconditionally wrapped in double quotes with backslash and
double quote escaped, an absent value as the bare 4 bytes NULL, and the
2-byte key/value separator `=>` between them. -/
def specPairText (k : GoStr) (v : PText) : GoStr :=
  [34] ++ quoteArrayReplace k ++ [34, 61, 62] ++
    (if v.valid then [34] ++ quoteArrayReplace v.string ++ [34]
     else [78, 85, 76, 76])

/-- Pairs joined by the exact 2-byte separator comma-space, with no
trailing separator (spec wording for the whole text form). -/
def joinPairsText : Hstore → GoStr
  | [] => []
  | [p] => specPairText p.1 p.2
  | p :: rest => specPairText p.1 p.2 ++ [44, 32] ++ joinPairsText rest

/-- The tail of a rendered pair list: a pair separator before every
remaining pair. -/
def renderSepPairs (h : Hstore) : GoStr :=
  h.flatMap (fun p => [44, 32] ++ specPairText p.1 p.2)

/-- Spec wording for one binary-format pair: 32-bit big-endian key length
and raw key bytes, then the 32-bit value length and raw value bytes for a
present value or the length -1 and no bytes for an absent one. -/
def specPairBinary (k : GoStr) (v : PText) : GoStr :=
  int32be k.length ++ k ++
    (if v.valid then int32be v.string.length ++ v.string else int32be (-1))

/-- Spec wording for the whole binary form: the big-endian 32-bit pair
count followed by the rendered pairs, with no escaping. -/
def specBinaryRender (h : Hstore) : GoStr :=
  int32be h.length ++ h.flatMap (fun p => specPairBinary p.1 p.2)

/-- Does a parse error name what was expected (a byte or production),
as opposed to the bare "unexpected end of string"? -/
def errNamesExpected : PErr → Bool
  | .expectedFoundEnd _ => true
  | .unexpectedByte _ _ => true
  | .eosInQuoted => true
  | .endInsteadOfValue => true
  | .unexpectedEscape _ => false
  | .unexpectedEndOfString => false
  | .fuelExhausted => false

/-- The value of the pair parsed last for a key, over a pair sequence. -/
def lastVal (l : Hstore) (k : GoStr) : Option PText :=
  (l.reverse.find? (fun p => p.1 = k)).map (fun p => p.2)

/-- Compat-variant spec wording for one text-format pair. -/
def specPairTextCompat (k : GoStr) (v : Option GoStr) : GoStr :=
  [34] ++ quoteArrayReplace k ++ [34, 61, 62] ++
    (match v with
     | none => [78, 85, 76, 76]
     | some s => [34] ++ quoteArrayReplace s ++ [34])

/-- Compat-variant pairs joined by comma-space with no trailing
separator. -/
def joinPairsTextCompat : HstoreCompat → GoStr
  | [] => []
  | [p] => specPairTextCompat p.1 p.2
  | p :: rest => specPairTextCompat p.1 p.2 ++ [44, 32] ++ joinPairsTextCompat rest

/-- Compat-variant spec wording for one binary-format pair. -/
def specPairBinaryCompat (k : GoStr) (v : Option GoStr) : GoStr :=
  int32be k.length ++ k ++
    (match v with
     | none => int32be (-1)
     | some s => int32be s.length ++ s)

/-- Compat-variant spec wording for the whole binary form. -/
def specBinaryRenderCompat (h : HstoreCompat) : GoStr :=
  int32be h.length ++ h.flatMap (fun p => specPairBinaryCompat p.1 p.2)

/-! ### Lemmas about the writers: the source encoders equal the spec-side
renders. -/

theorem int32be_toInt32 (n : Int) : int32be (toInt32 n) = int32be n := by
  unfold int32be toInt32
  have h : (n + 2 ^ 31) % 2 ^ 32 - 2 ^ 31 ≡ n [ZMOD (2 : Int) ^ 32] := by
    unfold Int.ModEq
    omega
  rw [show ((n + 2 ^ 31) % 2 ^ 32 - 2 ^ 31) % 2 ^ 32 = n % 2 ^ 32 from h]

theorem encodeTextPairs_false (h : Hstore) (buf : GoStr) :
    encodeTextPairs h buf false = buf ++ renderSepPairs h := by
  induction h generalizing buf with
  | nil => simp [encodeTextPairs, renderSepPairs]
  | cons p rest ih =>
      obtain ⟨k, v⟩ := p
      simp only [encodeTextPairs, if_neg Bool.false_ne_true, ih,
        renderSepPairs, List.flatMap_cons, specPairText]
      cases hv : v.valid <;> simp

theorem joinPairsText_cons (p : GoStr × PText) (rest : Hstore) :
    joinPairsText (p :: rest) = specPairText p.1 p.2 ++ renderSepPairs rest := by
  induction rest with
  | nil => simp [joinPairsText, renderSepPairs]
  | cons q t ih =>
      simp only [joinPairsText, renderSepPairs, List.flatMap_cons] at ih ⊢
      cases t with
      | nil => simp [joinPairsText]
      | cons r u => simp_all [joinPairsText]

theorem encodeTextPairs_true (h : Hstore) (buf : GoStr) :
    encodeTextPairs h buf true = buf ++ joinPairsText h := by
  cases h with
  | nil => simp [encodeTextPairs, joinPairsText]
  | cons p rest =>
      obtain ⟨k, v⟩ := p
      rw [joinPairsText_cons]
      simp only [encodeTextPairs, if_pos rfl, encodeTextPairs_false, specPairText]
      cases hv : v.valid <;> simp

theorem encodeBinaryPairs_eq (h : Hstore) (buf : GoStr) :
    encodeBinaryPairs h buf = buf ++ h.flatMap (fun p => specPairBinary p.1 p.2) := by
  induction h generalizing buf with
  | nil => simp [encodeBinaryPairs]
  | cons p rest ih =>
      obtain ⟨k, v⟩ := p
      simp only [encodeBinaryPairs, ih, List.flatMap_cons, specPairBinary,
        appendInt32, int32be_toInt32]
      cases hv : v.valid <;> simp

theorem encodeTextCompatPairs_eq (h : HstoreCompat) (buf : GoStr) (first : Bool) :
    encodeTextCompatPairs h buf first = encodeTextPairs (toPT h) buf first := by
  induction h generalizing buf first with
  | nil => simp [encodeTextCompatPairs, encodeTextPairs, toPT]
  | cons p rest ih =>
      obtain ⟨k, v⟩ := p
      cases v <;>
        simp [encodeTextCompatPairs, encodeTextPairs, toPT, ih, List.map_cons]

theorem encodeBinaryCompatPairs_eq (h : HstoreCompat) (buf : GoStr) :
    encodeBinaryCompatPairs h buf = encodeBinaryPairs (toPT h) buf := by
  induction h generalizing buf with
  | nil => simp [encodeBinaryCompatPairs, encodeBinaryPairs, toPT]
  | cons p rest ih =>
      obtain ⟨k, v⟩ := p
      cases v <;>
        simp [encodeBinaryCompatPairs, encodeBinaryPairs, toPT, List.map_cons] <;>
        rw [← toPT, ih]

theorem joinPairsTextCompat_eq (h : HstoreCompat) :
    joinPairsTextCompat h = joinPairsText (toPT h) := by
  induction h with
  | nil => simp [joinPairsTextCompat, joinPairsText, toPT]
  | cons p rest ih =>
      cases rest with
      | nil =>
          obtain ⟨k, v⟩ := p
          cases v <;> simp [joinPairsTextCompat, joinPairsText, toPT,
            specPairTextCompat, specPairText]
      | cons q t =>
          obtain ⟨k, v⟩ := p
          simp only [joinPairsTextCompat, toPT, List.map_cons, joinPairsText] at ih ⊢
          rw [ih]
          cases v <;> simp [specPairTextCompat, specPairText]

/-! ### Lemmas about IndexByte and escaping -/

theorem indexByteAux_cons_of_ne {c b : Nat} (r : GoStr) (h : c ≠ b) :
    indexByteAux (c :: r) b = (indexByteAux r b).map (· + 1) := by
  simp [indexByteAux, h]

theorem indexByteAux_eq_none {l : GoStr} {b : Nat} :
    indexByteAux l b = none ↔ b ∉ l := by
  induction l with
  | nil => simp [indexByteAux]
  | cons c rest ih =>
      by_cases hc : c = b
      · simp [indexByteAux, hc]
      · rw [indexByteAux_cons_of_ne _ hc, Option.map_eq_none']
        constructor
        · intro hn hm
          rcases List.mem_cons.mp hm with h1 | h2
          · exact hc h1.symm
          · exact (ih.mp hn) h2
        · intro hm
          exact ih.mpr (fun h2 => hm (List.mem_cons_of_mem c h2))

theorem indexByteAux_cons_self (l : GoStr) (b : Nat) :
    indexByteAux (b :: l) b = some 0 := by
  simp [indexByteAux]

theorem indexByteAux_append_of_not_mem {l : GoStr} (r : GoStr) {b : Nat}
    (h : b ∉ l) :
    indexByteAux (l ++ r) b = (indexByteAux r b).map (· + l.length) := by
  induction l with
  | nil => simp
  | cons c rest ih =>
      have hc : c ≠ b := fun hcb => h (by simp [hcb])
      have hr : b ∉ rest := fun hm => h (List.mem_cons_of_mem c hm)
      rw [List.cons_append, indexByteAux_cons_of_ne _ hc, ih hr]
      cases indexByteAux r b <;> simp <;> omega

theorem indexByteAux_isSome_of_mem {l : GoStr} {b : Nat} (h : b ∈ l) :
    ∃ i, indexByteAux l b = some i := by
  cases hi : indexByteAux l b with
  | none => exact absurd h (indexByteAux_eq_none.mp hi)
  | some i => exact ⟨i, rfl⟩

theorem indexByteFrom_append (pre tail : GoStr) (b : Nat) :
    indexByteFrom (pre ++ tail) pre.length b =
      (indexByteAux tail b).map (· + pre.length) := by
  unfold indexByteFrom
  rw [List.drop_left]

/-- A byte-free middle segment does not change the next index of that
byte: the cached next-backslash index stays valid as the parser advances
over backslash-free bytes. -/
theorem indexByteFrom_advance (pre mid tail : GoStr) (b : Nat) (h : b ∉ mid) :
    indexByteFrom (pre ++ (mid ++ tail)) pre.length b =
      indexByteFrom (pre ++ (mid ++ tail)) (pre.length + mid.length) b := by
  have h2 : pre ++ (mid ++ tail) = (pre ++ mid) ++ tail := by simp
  have h3 : pre.length + mid.length = (pre ++ mid).length := by simp
  rw [indexByteFrom_append, h2, h3, indexByteFrom_append,
    indexByteAux_append_of_not_mem tail h]
  cases indexByteAux tail b <;> simp <;> omega

/-- A string with neither a backslash nor a double quote. -/
def cleanStr (s : GoStr) : Prop := ∀ c ∈ s, ¬(c = 92 ∨ c = 34)

theorem qar_of_clean {s : GoStr} (h : cleanStr s) : quoteArrayReplace s = s := by
  induction s with
  | nil => rfl
  | cons c rest ih =>
      have hc := h c (by simp)
      rw [quoteArrayReplace, if_neg hc, ih (fun x hx => h x (by simp [hx]))]

theorem qar_append (a b : GoStr) :
    quoteArrayReplace (a ++ b) = quoteArrayReplace a ++ quoteArrayReplace b := by
  induction a with
  | nil => rfl
  | cons c rest ih =>
      by_cases hc : c = 92 ∨ c = 34 <;>
        simp [quoteArrayReplace, hc, ih]

/-- Either a string is clean, or it splits at its first special byte. -/
theorem clean_or_split (x : GoStr) :
    cleanStr x ∨
      ∃ a c b, x = a ++ c :: b ∧ cleanStr a ∧ (c = 92 ∨ c = 34) := by
  induction x with
  | nil => exact Or.inl (by intro c hc; cases hc)
  | cons d rest ih =>
      by_cases hd : d = 92 ∨ d = 34
      · exact Or.inr ⟨[], d, rest, by simp,
          ⟨fun c hc => absurd hc (List.not_mem_nil c), hd⟩⟩
      · cases ih with
        | inl hclean =>
            exact Or.inl (by
              intro c hc
              rcases List.mem_cons.mp hc with h1 | h2
              · exact h1 ▸ hd
              · exact hclean c h2)
        | inr hsplit =>
            obtain ⟨a, c, b, hx, ha, hc⟩ := hsplit
            refine Or.inr ⟨d :: a, c, b, by simp [hx], ?_, hc⟩
            intro e he
            rcases List.mem_cons.mp he with h1 | h2
            · exact h1 ▸ hd
            · exact ha e h2

theorem dqEscLoop_render (s rest : GoStr) :
    dqEscLoop (quoteArrayReplace s ++ 34 :: rest) = .ok (s, rest) := by
  induction s with
  | nil =>
      show dqEscLoop (34 :: rest) = .ok ([], rest)
      rw [dqEscLoop.eq_def]
      simp
  | cons c cs ih =>
      by_cases hc : c = 92 ∨ c = 34
      · rw [quoteArrayReplace, if_pos hc, List.cons_append, List.cons_append,
          dqEscLoop]
        norm_num
        rw [if_pos hc, ih]
      · rw [quoteArrayReplace, if_neg hc, List.cons_append]
        push_neg at hc
        rw [dqEscLoop.eq_def]
        simp only [if_neg hc.2, if_neg hc.1, ih]

theorem not_mem_92_of_clean {s : GoStr} (h : cleanStr s) : 92 ∉ s :=
  fun hm => (h 92 hm) (Or.inl rfl)

theorem not_mem_34_of_clean {s : GoStr} (h : cleanStr s) : 34 ∉ s :=
  fun hm => (h 34 hm) (Or.inr rfl)

theorem ibf34_clean (pre x suffix : GoStr) (hx : cleanStr x) :
    indexByteFrom (pre ++ (x ++ 34 :: suffix)) pre.length 34 =
      some (x.length + pre.length) := by
  rw [indexByteFrom_append,
    indexByteAux_append_of_not_mem _ (not_mem_34_of_clean hx),
    indexByteAux_cons_self]
  simp

theorem ibf92_clean (pre x suffix : GoStr) (hx : cleanStr x) :
    indexByteFrom (pre ++ (x ++ 34 :: suffix)) pre.length 92 =
      (indexByteAux suffix 92).map (fun i => i + 1 + x.length + pre.length) := by
  rw [indexByteFrom_append,
    indexByteAux_append_of_not_mem _ (not_mem_92_of_clean hx),
    indexByteAux_cons_of_ne _ (by decide : (34 : Nat) ≠ 92)]
  cases indexByteAux suffix 92 <;> simp

theorem ibf92_after (pre x suffix : GoStr) :
    indexByteFrom (pre ++ (x ++ 34 :: suffix)) (pre.length + x.length + 1) 92 =
      (indexByteAux suffix 92).map
        (fun i => i + (pre.length + x.length + 1)) := by
  have h1 : pre ++ (x ++ 34 :: suffix) = (pre ++ x ++ [34]) ++ suffix := by simp
  have h2 : pre.length + x.length + 1 = (pre ++ x ++ [34]).length := by
    simp
    omega
  rw [h1, h2, indexByteFrom_append]

/-- consumeDoubleQuoted on a rendered quoted string: with the input laid
out as the consumed prefix, the escaped content, the closing quote and
the rest, and the cached next-backslash index valid for the current
position, it returns the unescaped content and advances past the closing
quote, keeping the next-backslash cache valid. -/
theorem consumeDoubleQuoted_render (pre x suffix : GoStr) :
    HSP.consumeDoubleQuoted
      ⟨pre ++ (quoteArrayReplace x ++ 34 :: suffix), pre.length,
        indexByteFrom (pre ++ (quoteArrayReplace x ++ 34 :: suffix))
          pre.length 92⟩ =
    .ok (x, ⟨pre ++ (quoteArrayReplace x ++ 34 :: suffix),
      pre.length + (quoteArrayReplace x).length + 1,
      indexByteFrom (pre ++ (quoteArrayReplace x ++ 34 :: suffix))
        (pre.length + (quoteArrayReplace x).length + 1) 92⟩) := by
  rcases clean_or_split x with hx | ⟨a, c, b, hxe, ha, hc⟩
  · -- fast path: no backslash before the closing quote
    have hq : quoteArrayReplace x = x := qar_of_clean hx
    rw [hq]
    simp only [HSP.consumeDoubleQuoted, ibf34_clean pre x suffix hx,
      ibf92_clean pre x suffix hx, ibf92_after pre x suffix]
    cases hsuf : indexByteAux suffix 92 with
    | none =>
        simp only [Option.map_none']
        have hdrop : (pre ++ (x ++ 34 :: suffix)).drop pre.length =
            x ++ 34 :: suffix := List.drop_left pre _
        have htake : (x ++ 34 :: suffix).take (x.length + pre.length - pre.length)
            = x := by
          rw [show x.length + pre.length - pre.length = x.length by omega,
            List.take_left]
        rw [hdrop, htake]
        have hpos : x.length + pre.length + 1 = pre.length + x.length + 1 := by
          omega
        rw [hpos]
    | some j =>
        simp only [Option.map_some']
        rw [if_pos (by omega : j + 1 + x.length + pre.length >
          x.length + pre.length)]
        have hdrop : (pre ++ (x ++ 34 :: suffix)).drop pre.length =
            x ++ 34 :: suffix := List.drop_left pre _
        have htake : (x ++ 34 :: suffix).take (x.length + pre.length - pre.length)
            = x := by
          rw [show x.length + pre.length - pre.length = x.length by omega,
            List.take_left]
        rw [hdrop, htake]
        have hpos : x.length + pre.length + 1 = pre.length + x.length + 1 := by
          omega
        have hj : j + 1 + x.length + pre.length =
            j + (pre.length + x.length + 1) := by omega
        rw [hpos, hj]
  · -- slow path: the content contains a backslash or a quote
    have hq : quoteArrayReplace x = a ++ (92 :: c :: quoteArrayReplace b) := by
      rw [hxe, qar_append, qar_of_clean ha, quoteArrayReplace, if_pos hc]
    have hassoc : quoteArrayReplace x ++ 34 :: suffix =
        a ++ (92 :: (c :: (quoteArrayReplace b ++ 34 :: suffix))) := by
      rw [hq]; simp
    -- the cached backslash index points at the escape backslash
    have hnb : indexByteFrom (pre ++ (quoteArrayReplace x ++ 34 :: suffix))
        pre.length 92 = some (a.length + pre.length) := by
      rw [hassoc, indexByteFrom_append,
        indexByteAux_append_of_not_mem _ (not_mem_92_of_clean ha),
        indexByteAux_cons_self]
      simp
    -- the next double quote is somewhere at or after the escape backslash
    obtain ⟨j, hj⟩ : ∃ j, indexByteAux
        (c :: (quoteArrayReplace b ++ 34 :: suffix)) 34 = some j := by
      apply indexByteAux_isSome_of_mem
      exact List.mem_cons_of_mem c (by simp)
    have hndq : indexByteFrom (pre ++ (quoteArrayReplace x ++ 34 :: suffix))
        pre.length 34 = some (j + 1 + a.length + pre.length) := by
      rw [hassoc, indexByteFrom_append,
        indexByteAux_append_of_not_mem _ (not_mem_34_of_clean ha),
        indexByteAux_cons_of_ne _ (by decide : (92 : Nat) ≠ 34), hj]
      simp
    simp only [HSP.consumeDoubleQuoted, hnb, hndq]
    rw [if_neg (by omega : ¬(a.length + pre.length >
      j + 1 + a.length + pre.length))]
    -- the slow path: builder prefix plus the escape loop
    have hdropnb : (pre ++ (quoteArrayReplace x ++ 34 :: suffix)).drop
        (a.length + pre.length) = quoteArrayReplace (c :: b) ++ 34 :: suffix := by
      have h1 : pre ++ (quoteArrayReplace x ++ 34 :: suffix) =
          (pre ++ a) ++ (quoteArrayReplace (c :: b) ++ 34 :: suffix) := by
        rw [hassoc, quoteArrayReplace, if_pos hc]; simp
      rw [h1, show a.length + pre.length = (pre ++ a).length by simp; omega,
        List.drop_left]
    have hdroppos : (pre ++ (quoteArrayReplace x ++ 34 :: suffix)).drop
        pre.length = a ++ (92 :: (c :: (quoteArrayReplace b ++ 34 :: suffix))) := by
      rw [hassoc, List.drop_left]
    simp only [HSP.consumeDoubleQuotedWithEscapes, hdropnb,
      dqEscLoop_render (c :: b) suffix, hdroppos]
    have htake : (a ++ (92 :: (c :: (quoteArrayReplace b ++ 34 :: suffix)))).take
        (a.length + pre.length - pre.length) = a := by
      rw [show a.length + pre.length - pre.length = a.length by omega,
        List.take_left]
    rw [htake]
    have hlen : (pre ++ (quoteArrayReplace x ++ 34 :: suffix)).length -
        suffix.length = pre.length + (quoteArrayReplace x).length + 1 := by
      have h2 : (quoteArrayReplace x).length = a.length + 2 +
          (quoteArrayReplace b).length := by rw [hq]; simp; omega
      simp [h2]
      omega
    rw [hlen, hxe]
theorem getD_append_cons (pre : GoStr) (c : Nat) (t : GoStr) (d : Nat) :
    (pre ++ c :: t).getD pre.length d = c := by
  rw [List.getD_append_right _ _ _ _ (le_refl _)]
  simp

theorem consumeExpected2_at (str : GoStr) (pos : Nat) (c1 c2 : Nat)
    (nb : Option Nat) (pre suffix : GoStr)
    (hstr : str = pre ++ c1 :: c2 :: suffix) (hpos : pos = pre.length) :
    HSP.consumeExpected2 ⟨str, pos, nb⟩ c1 c2 = .ok ⟨str, pos + 2, nb⟩ := by
  subst hstr
  subst hpos
  unfold HSP.consumeExpected2
  have hlen : ¬(pre.length + 2 > (pre ++ c1 :: c2 :: suffix).length) := by
    simp
  have h1 : (pre ++ c1 :: c2 :: suffix).getD pre.length 0 = c1 :=
    getD_append_cons pre c1 _ 0
  have h2 : (pre ++ c1 :: c2 :: suffix).getD (pre.length + 1) 0 = c2 := by
    have e1 : pre ++ c1 :: c2 :: suffix = (pre ++ [c1]) ++ c2 :: suffix := by
      simp
    have e2 : pre.length + 1 = (pre ++ [c1]).length := by simp
    rw [e1, e2]
    exact getD_append_cons (pre ++ [c1]) c2 _ 0
  simp only [h1, h2, if_neg hlen]
  simp

theorem consumeExpectedByte_at (str : GoStr) (pos : Nat) (c : Nat)
    (nb : Option Nat) (pre suffix : GoStr) (hstr : str = pre ++ c :: suffix)
    (hpos : pos = pre.length) :
    HSP.consumeExpectedByte ⟨str, pos, nb⟩ c = .ok ⟨str, pos + 1, nb⟩ := by
  subst hstr
  subst hpos
  unfold HSP.consumeExpectedByte HSP.consume
  have hlen : ¬(pre.length ≥ (pre ++ c :: suffix).length) := by
    simp
  rw [if_neg hlen]
  simp only [getD_append_cons]
  simp

theorem consumeDoubleQuoted_at (str : GoStr) (pos : Nat) (nb : Option Nat)
    (pre x suffix : GoStr)
    (hstr : str = pre ++ (quoteArrayReplace x ++ 34 :: suffix))
    (hpos : pos = pre.length) (hnb : nb = indexByteFrom str pos 92) :
    HSP.consumeDoubleQuoted ⟨str, pos, nb⟩ =
      .ok (x, ⟨str, pos + (quoteArrayReplace x).length + 1,
        indexByteFrom str (pos + (quoteArrayReplace x).length + 1) 92⟩) := by
  subst hnb
  subst hstr
  subst hpos
  exact consumeDoubleQuoted_render pre x suffix

theorem consumeDoubleQuotedOrNull_null_at (str : GoStr) (pos : Nat)
    (nb : Option Nat) (pre suffix : GoStr)
    (hstr : str = pre ++ 78 :: 85 :: 76 :: 76 :: suffix)
    (hpos : pos = pre.length) :
    HSP.consumeDoubleQuotedOrNull ⟨str, pos, nb⟩ =
      .ok (⟨[], false⟩, ⟨str, pos + 4, nb⟩) := by
  subst hstr
  subst hpos
  unfold HSP.consumeDoubleQuotedOrNull
  have hlen : ¬(pre.length ≥ (pre ++ 78 :: 85 :: 76 :: 76 :: suffix).length) := by
    simp
  rw [if_neg hlen]
  simp only [getD_append_cons]
  norm_num
  simp only [consumeExpected2_at (pre ++ 78 :: 85 :: 76 :: 76 :: suffix)
    pre.length 78 85 nb pre (76 :: 76 :: suffix) rfl rfl]
  simp only [consumeExpected2_at (pre ++ 78 :: 85 :: 76 :: 76 :: suffix)
    (pre.length + 2) 76 76 nb (pre ++ [78, 85]) suffix (by simp) (by simp)]

theorem consumeDoubleQuotedOrNull_quoted_at (str : GoStr) (pos : Nat)
    (nb : Option Nat) (pre s suffix : GoStr)
    (hstr : str = pre ++ 34 :: (quoteArrayReplace s ++ 34 :: suffix))
    (hpos : pos = pre.length) (hnb : nb = indexByteFrom str pos 92) :
    HSP.consumeDoubleQuotedOrNull ⟨str, pos, nb⟩ =
      .ok (⟨s, true⟩, ⟨str, pos + (quoteArrayReplace s).length + 2,
        indexByteFrom str (pos + (quoteArrayReplace s).length + 2) 92⟩) := by
  subst hnb
  subst hstr
  subst hpos
  unfold HSP.consumeDoubleQuotedOrNull
  have hlen : ¬(pre.length ≥
      (pre ++ 34 :: (quoteArrayReplace s ++ 34 :: suffix)).length) := by
    simp
  rw [if_neg hlen]
  simp only [getD_append_cons]
  rw [if_neg (by decide : ¬(34 : Nat) = 78),
    if_neg (not_not_intro (rfl : (34 : Nat) = 34))]
  have hadv : indexByteFrom (pre ++ 34 :: (quoteArrayReplace s ++ 34 :: suffix))
      pre.length 92 =
      indexByteFrom (pre ++ 34 :: (quoteArrayReplace s ++ 34 :: suffix))
        (pre.length + 1) 92 := by
    have e : pre ++ 34 :: (quoteArrayReplace s ++ 34 :: suffix) =
        pre ++ ([34] ++ (quoteArrayReplace s ++ 34 :: suffix)) := by simp
    have h := indexByteFrom_advance pre [34]
      (quoteArrayReplace s ++ 34 :: suffix) 92 (by decide)
    rw [e]
    simpa using h
  rw [hadv]
  simp only [consumeDoubleQuoted_at
    (pre ++ 34 :: (quoteArrayReplace s ++ 34 :: suffix)) (pre.length + 1)
    (indexByteFrom (pre ++ 34 :: (quoteArrayReplace s ++ 34 :: suffix))
      (pre.length + 1) 92)
    (pre ++ [34]) s suffix (by simp) (by simp) rfl]
  have e2 : pre.length + 1 + (quoteArrayReplace s).length + 1 =
      pre.length + (quoteArrayReplace s).length + 2 := by omega
  rw [e2]

theorem ibf_advance_at (str pre mid rest : GoStr) (b : Nat) (p q : Nat)
    (hstr : str = pre ++ (mid ++ rest)) (hmid : b ∉ mid)
    (hp : p = pre.length) (hq : q = p + mid.length) :
    indexByteFrom str p b = indexByteFrom str q b := by
  subst hstr
  subst hp
  subst hq
  exact indexByteFrom_advance pre mid rest b hmid

theorem parseLoop_step_notfirst (fuel : Nat) (acc : Hstore) (k : GoStr)
    (v : PText) (hcan : v.valid = false → v.string = [])
    (str pre tail : GoStr)
    (hstr : str = pre ++ ([44, 32] ++ (specPairText k v ++ tail))) :
    parseHstoreLoop (fuel + 1)
      ⟨str, pre.length, indexByteFrom str pre.length 92⟩ false acc =
    parseHstoreLoop fuel
      ⟨str, pre.length + 2 + (specPairText k v).length,
        indexByteFrom str (pre.length + 2 + (specPairText k v).length) 92⟩
      false (mapSet acc k v) := by
  obtain ⟨vs, vv⟩ := v
  have hend : ¬(pre.length ≥ str.length) := by
    rw [hstr]
    simp [specPairText]
  cases vv with
  | true =>
      simp only [parseHstoreLoop]
      rw [if_neg hend, if_neg (by decide : ¬(false = true))]
      simp only [HSP.consumePairSeparator]
      simp only [consumeExpected2_at str pre.length 44 32
        (indexByteFrom str pre.length 92) pre (specPairText k ⟨vs, true⟩ ++ tail)
        (by rw [hstr]; simp) rfl]
      simp only [consumeExpectedByte_at str (pre.length + 2) 34
        (indexByteFrom str pre.length 92) (pre ++ [44, 32])
        (quoteArrayReplace k ++ (34 :: 61 :: 62 ::
          ([34] ++ quoteArrayReplace vs ++ [34] ++ tail)))
        (by rw [hstr]; simp [specPairText]) (by simp)]
      rw [ibf_advance_at str pre [44, 32, 34]
        (quoteArrayReplace k ++ (34 :: 61 :: 62 ::
          ([34] ++ quoteArrayReplace vs ++ [34] ++ tail))) 92
        pre.length (pre.length + 2 + 1) (by rw [hstr]; simp [specPairText])
        (by decide) rfl (by simp)]
      simp only [consumeDoubleQuoted_at str (pre.length + 2 + 1)
        (indexByteFrom str (pre.length + 2 + 1) 92) (pre ++ [44, 32, 34]) k
        (61 :: 62 :: ([34] ++ quoteArrayReplace vs ++ [34] ++ tail))
        (by rw [hstr]; simp [specPairText]) (by simp) rfl]
      simp only [HSP.consumeKVSeparator]
      simp only [consumeExpected2_at str
        (pre.length + 2 + 1 + (quoteArrayReplace k).length + 1) 61 62
        (indexByteFrom str
          (pre.length + 2 + 1 + (quoteArrayReplace k).length + 1) 92)
        (pre ++ [44, 32, 34] ++ quoteArrayReplace k ++ [34])
        ([34] ++ quoteArrayReplace vs ++ [34] ++ tail)
        (by rw [hstr]; simp [specPairText]) (by simp; omega)]
      rw [ibf_advance_at str
        (pre ++ [44, 32, 34] ++ quoteArrayReplace k ++ [34]) [61, 62]
        ([34] ++ quoteArrayReplace vs ++ [34] ++ tail) 92
        (pre.length + 2 + 1 + (quoteArrayReplace k).length + 1)
        (pre.length + 2 + 1 + (quoteArrayReplace k).length + 1 + 2)
        (by rw [hstr]; simp [specPairText]) (by decide) (by simp; omega)
        (by simp)]
      simp only [consumeDoubleQuotedOrNull_quoted_at str
        (pre.length + 2 + 1 + (quoteArrayReplace k).length + 1 + 2)
        (indexByteFrom str
          (pre.length + 2 + 1 + (quoteArrayReplace k).length + 1 + 2) 92)
        (pre ++ [44, 32, 34] ++ quoteArrayReplace k ++ [34] ++ [61, 62]) vs tail
        (by rw [hstr]; simp [specPairText]) (by simp; omega) rfl]
      have efin : pre.length + 2 + 1 + (quoteArrayReplace k).length + 1 + 2 +
          (quoteArrayReplace vs).length + 2 =
          pre.length + 2 + (specPairText k ⟨vs, true⟩).length := by
        simp [specPairText]
        omega
      rw [efin]
  | false =>
      have hvs : vs = [] := hcan rfl
      subst hvs
      simp only [parseHstoreLoop]
      rw [if_neg hend, if_neg (by decide : ¬(false = true))]
      simp only [HSP.consumePairSeparator]
      simp only [consumeExpected2_at str pre.length 44 32
        (indexByteFrom str pre.length 92) pre
        (specPairText k ⟨[], false⟩ ++ tail) (by rw [hstr]; simp) rfl]
      simp only [consumeExpectedByte_at str (pre.length + 2) 34
        (indexByteFrom str pre.length 92) (pre ++ [44, 32])
        (quoteArrayReplace k ++ (34 :: 61 :: 62 :: ([78, 85, 76, 76] ++ tail)))
        (by rw [hstr]; simp [specPairText]) (by simp)]
      rw [ibf_advance_at str pre [44, 32, 34]
        (quoteArrayReplace k ++ (34 :: 61 :: 62 :: ([78, 85, 76, 76] ++ tail)))
        92 pre.length (pre.length + 2 + 1)
        (by rw [hstr]; simp [specPairText]) (by decide) rfl (by simp)]
      simp only [consumeDoubleQuoted_at str (pre.length + 2 + 1)
        (indexByteFrom str (pre.length + 2 + 1) 92) (pre ++ [44, 32, 34]) k
        (61 :: 62 :: ([78, 85, 76, 76] ++ tail))
        (by rw [hstr]; simp [specPairText]) (by simp) rfl]
      simp only [HSP.consumeKVSeparator]
      simp only [consumeExpected2_at str
        (pre.length + 2 + 1 + (quoteArrayReplace k).length + 1) 61 62
        (indexByteFrom str
          (pre.length + 2 + 1 + (quoteArrayReplace k).length + 1) 92)
        (pre ++ [44, 32, 34] ++ quoteArrayReplace k ++ [34])
        ([78, 85, 76, 76] ++ tail)
        (by rw [hstr]; simp [specPairText]) (by simp; omega)]
      simp only [consumeDoubleQuotedOrNull_null_at str
        (pre.length + 2 + 1 + (quoteArrayReplace k).length + 1 + 2)
        (indexByteFrom str
          (pre.length + 2 + 1 + (quoteArrayReplace k).length + 1) 92)
        (pre ++ [44, 32, 34] ++ quoteArrayReplace k ++ [34] ++ [61, 62]) tail
        (by rw [hstr]; simp [specPairText]) (by simp; omega)]
      rw [ibf_advance_at str
        (pre ++ [44, 32, 34] ++ quoteArrayReplace k ++ [34])
        [61, 62, 78, 85, 76, 76] tail 92
        (pre.length + 2 + 1 + (quoteArrayReplace k).length + 1)
        (pre.length + 2 + 1 + (quoteArrayReplace k).length + 1 + 2 + 4)
        (by rw [hstr]; simp [specPairText]) (by decide) (by simp; omega)
        (by simp)]
      have efin : pre.length + 2 + 1 + (quoteArrayReplace k).length + 1 + 2 + 4 =
          pre.length + 2 + (specPairText k ⟨[], false⟩).length := by
        simp [specPairText]
        omega
      rw [efin]

theorem parseLoop_step_first (fuel : Nat) (acc : Hstore) (k : GoStr)
    (v : PText) (hcan : v.valid = false → v.string = [])
    (str pre tail : GoStr)
    (hstr : str = pre ++ (specPairText k v ++ tail)) :
    parseHstoreLoop (fuel + 1)
      ⟨str, pre.length, indexByteFrom str pre.length 92⟩ true acc =
    parseHstoreLoop fuel
      ⟨str, pre.length + (specPairText k v).length,
        indexByteFrom str (pre.length + (specPairText k v).length) 92⟩
      false (mapSet acc k v) := by
  obtain ⟨vs, vv⟩ := v
  have hend : ¬(pre.length ≥ str.length) := by
    rw [hstr]
    simp [specPairText]
  cases vv with
  | true =>
      simp only [parseHstoreLoop]
      rw [if_neg hend, if_pos trivial]
      simp only [consumeExpectedByte_at str pre.length 34
        (indexByteFrom str pre.length 92) pre
        (quoteArrayReplace k ++ (34 :: 61 :: 62 ::
          ([34] ++ quoteArrayReplace vs ++ [34] ++ tail)))
        (by rw [hstr]; simp [specPairText]) rfl]
      rw [ibf_advance_at str pre [34]
        (quoteArrayReplace k ++ (34 :: 61 :: 62 ::
          ([34] ++ quoteArrayReplace vs ++ [34] ++ tail))) 92
        pre.length (pre.length + 1) (by rw [hstr]; simp [specPairText])
        (by decide) rfl (by simp)]
      simp only [consumeDoubleQuoted_at str (pre.length + 1)
        (indexByteFrom str (pre.length + 1) 92) (pre ++ [34]) k
        (61 :: 62 :: ([34] ++ quoteArrayReplace vs ++ [34] ++ tail))
        (by rw [hstr]; simp [specPairText]) (by simp) rfl]
      simp only [HSP.consumeKVSeparator]
      simp only [consumeExpected2_at str
        (pre.length + 1 + (quoteArrayReplace k).length + 1) 61 62
        (indexByteFrom str
          (pre.length + 1 + (quoteArrayReplace k).length + 1) 92)
        (pre ++ [34] ++ quoteArrayReplace k ++ [34])
        ([34] ++ quoteArrayReplace vs ++ [34] ++ tail)
        (by rw [hstr]; simp [specPairText]) (by simp; omega)]
      rw [ibf_advance_at str
        (pre ++ [34] ++ quoteArrayReplace k ++ [34]) [61, 62]
        ([34] ++ quoteArrayReplace vs ++ [34] ++ tail) 92
        (pre.length + 1 + (quoteArrayReplace k).length + 1)
        (pre.length + 1 + (quoteArrayReplace k).length + 1 + 2)
        (by rw [hstr]; simp [specPairText]) (by decide) (by simp; omega)
        (by simp)]
      simp only [consumeDoubleQuotedOrNull_quoted_at str
        (pre.length + 1 + (quoteArrayReplace k).length + 1 + 2)
        (indexByteFrom str
          (pre.length + 1 + (quoteArrayReplace k).length + 1 + 2) 92)
        (pre ++ [34] ++ quoteArrayReplace k ++ [34] ++ [61, 62]) vs tail
        (by rw [hstr]; simp [specPairText]) (by simp; omega) rfl]
      have efin : pre.length + 1 + (quoteArrayReplace k).length + 1 + 2 +
          (quoteArrayReplace vs).length + 2 =
          pre.length + (specPairText k ⟨vs, true⟩).length := by
        simp [specPairText]
        omega
      rw [efin]
  | false =>
      have hvs : vs = [] := hcan rfl
      subst hvs
      simp only [parseHstoreLoop]
      rw [if_neg hend, if_pos trivial]
      simp only [consumeExpectedByte_at str pre.length 34
        (indexByteFrom str pre.length 92) pre
        (quoteArrayReplace k ++ (34 :: 61 :: 62 :: ([78, 85, 76, 76] ++ tail)))
        (by rw [hstr]; simp [specPairText]) rfl]
      rw [ibf_advance_at str pre [34]
        (quoteArrayReplace k ++ (34 :: 61 :: 62 :: ([78, 85, 76, 76] ++ tail)))
        92 pre.length (pre.length + 1) (by rw [hstr]; simp [specPairText])
        (by decide) rfl (by simp)]
      simp only [consumeDoubleQuoted_at str (pre.length + 1)
        (indexByteFrom str (pre.length + 1) 92) (pre ++ [34]) k
        (61 :: 62 :: ([78, 85, 76, 76] ++ tail))
        (by rw [hstr]; simp [specPairText]) (by simp) rfl]
      simp only [HSP.consumeKVSeparator]
      simp only [consumeExpected2_at str
        (pre.length + 1 + (quoteArrayReplace k).length + 1) 61 62
        (indexByteFrom str
          (pre.length + 1 + (quoteArrayReplace k).length + 1) 92)
        (pre ++ [34] ++ quoteArrayReplace k ++ [34])
        ([78, 85, 76, 76] ++ tail)
        (by rw [hstr]; simp [specPairText]) (by simp; omega)]
      simp only [consumeDoubleQuotedOrNull_null_at str
        (pre.length + 1 + (quoteArrayReplace k).length + 1 + 2)
        (indexByteFrom str
          (pre.length + 1 + (quoteArrayReplace k).length + 1) 92)
        (pre ++ [34] ++ quoteArrayReplace k ++ [34] ++ [61, 62]) tail
        (by rw [hstr]; simp [specPairText]) (by simp; omega)]
      rw [ibf_advance_at str
        (pre ++ [34] ++ quoteArrayReplace k ++ [34])
        [61, 62, 78, 85, 76, 76] tail 92
        (pre.length + 1 + (quoteArrayReplace k).length + 1)
        (pre.length + 1 + (quoteArrayReplace k).length + 1 + 2 + 4)
        (by rw [hstr]; simp [specPairText]) (by decide) (by simp; omega)
        (by simp)]
      have efin : pre.length + 1 + (quoteArrayReplace k).length + 1 + 2 + 4 =
          pre.length + (specPairText k ⟨[], false⟩).length := by
        simp [specPairText]
        omega
      rw [efin]

theorem renderSepPairs_length_ge (t : Hstore) :
    t.length ≤ (renderSepPairs t).length := by
  induction t with
  | nil => simp [renderSepPairs]
  | cons p r ih =>
      have h : renderSepPairs (p :: r) =
          [44, 32] ++ specPairText p.1 p.2 ++ renderSepPairs r := by
        simp [renderSepPairs]
      rw [h]
      simp only [List.length_append, List.length_cons, List.length_nil]
      omega

/-- The parse loop consumes a separator-prefixed rendered pair list and
accumulates the pairs with Go map-update semantics. -/
theorem parseLoop_render (rest : Hstore) (pre : GoStr) (acc : Hstore)
    (fuel : Nat) (hfuel : rest.length + 1 ≤ fuel)
    (hcan : ∀ p ∈ rest, p.2.valid = false → p.2.string = []) :
    parseHstoreLoop fuel
      ⟨pre ++ renderSepPairs rest, pre.length,
        indexByteFrom (pre ++ renderSepPairs rest) pre.length 92⟩ false acc =
      .ok (rest.foldl (fun a p => mapSet a p.1 p.2) acc) := by
  induction rest generalizing pre acc fuel with
  | nil =>
      obtain ⟨fuel', rfl⟩ : ∃ f, fuel = f + 1 := ⟨fuel - 1, by omega⟩
      simp only [renderSepPairs, List.flatMap_nil, List.append_nil,
        parseHstoreLoop]
      rw [if_pos (le_refl _)]
      simp
  | cons p t ih =>
      obtain ⟨fuel', rfl⟩ : ∃ f, fuel = f + 1 := ⟨fuel - 1, by omega⟩
      obtain ⟨k, v⟩ := p
      have hshape : pre ++ renderSepPairs ((k, v) :: t) =
          pre ++ ([44, 32] ++ (specPairText k v ++ renderSepPairs t)) := by
        simp [renderSepPairs]
      rw [hshape]
      rw [parseLoop_step_notfirst fuel' acc k v (hcan (k, v) (by simp)) _ pre
        (renderSepPairs t) rfl]
      have hstr2 : pre ++ ([44, 32] ++ (specPairText k v ++ renderSepPairs t)) =
          (pre ++ ([44, 32] ++ specPairText k v)) ++ renderSepPairs t := by
        simp
      have hpre : pre.length + 2 + (specPairText k v).length =
          (pre ++ ([44, 32] ++ specPairText k v)).length := by
        simp
        omega
      rw [hstr2, hpre]
      rw [ih (pre ++ ([44, 32] ++ specPairText k v)) (mapSet acc k v) fuel'
        (by simp at hfuel ⊢; omega)
        (fun q hq => hcan q (List.mem_cons_of_mem _ hq))]
      simp

/-- parseHstore on a rendered pair list accumulates the pairs in order
with Go map-update semantics: no uniqueness assumption, so a later pair
overwrites an earlier one with the same key. -/
theorem parseHstore_render (h : Hstore)
    (hcan : ∀ p ∈ h, p.2.valid = false → p.2.string = []) :
    parseHstore (joinPairsText h) =
      .ok (h.foldl (fun a p => mapSet a p.1 p.2) []) := by
  cases h with
  | nil => rfl
  | cons p t =>
      obtain ⟨k, v⟩ := p
      rw [joinPairsText_cons]
      unfold parseHstore newHSP
      show parseHstoreLoop
        ((specPairText (k, v).1 (k, v).2 ++ renderSepPairs t).length + 1)
        ⟨specPairText (k, v).1 (k, v).2 ++ renderSepPairs t,
          ([] : GoStr).length,
          indexByteFrom (specPairText (k, v).1 (k, v).2 ++ renderSepPairs t)
            ([] : GoStr).length 92⟩ true [] = _
      rw [parseLoop_step_first _ [] k v (hcan (k, v) (by simp)) _ []
        (renderSepPairs t) (by simp)]
      have hpre : ([] : GoStr).length + (specPairText k v).length =
          (specPairText k v).length := by simp
      rw [hpre]
      rw [parseLoop_render t (specPairText k v) (mapSet [] k v) _
        (by
          have h1 := renderSepPairs_length_ge t
          have h2 : 0 < (specPairText k v).length := by simp [specPairText]
          simp
          omega)
        (fun q hq => hcan q (List.mem_cons_of_mem _ hq))]
      simp

/-! ### Go map semantics lemmas -/

theorem mapGet_mapSet {α : Type} (a : List (GoStr × α)) (k q : GoStr) (v : α) :
    mapGet (mapSet a k v) q = if k = q then some v else mapGet a q := by
  induction a with
  | nil =>
      by_cases hkq : k = q <;> simp [mapSet, mapGet, hkq]
  | cons p t ih =>
      obtain ⟨k', v'⟩ := p
      by_cases hk : k' = k
      · subst hk
        by_cases hkq : k' = q <;> simp [mapSet, mapGet, hkq]
      · by_cases hkq : k' = q
        · subst hkq
          have : ¬(k = k') := fun h => hk h.symm
          simp [mapSet, mapGet, hk, this]
        · simp [mapSet, mapGet, hk, hkq, ih]

theorem mapGet_append {α : Type} (a b : List (GoStr × α)) (q : GoStr) :
    mapGet (a ++ b) q = (mapGet a q).or (mapGet b q) := by
  induction a with
  | nil => simp [mapGet]
  | cons p t ih =>
      obtain ⟨k', v'⟩ := p
      by_cases hk : k' = q <;> simp [mapGet, hk, ih]

theorem mapSet_append_of_get_none {α : Type} (a : List (GoStr × α))
    (k : GoStr) (v : α) (h : mapGet a k = none) :
    mapSet a k v = a ++ [(k, v)] := by
  induction a with
  | nil => simp [mapSet]
  | cons p t ih =>
      obtain ⟨k', v'⟩ := p
      by_cases hk : k' = k
      · simp [mapGet, hk] at h
      · simp [mapGet, hk] at h
        simp [mapSet, hk, ih h]

/-- With unique keys and fresh accumulator, the Go map insertions rebuild
the pair list itself. -/
theorem foldl_mapSet_append {α : Type} (h : List (GoStr × α))
    (acc : List (GoStr × α)) (huniq : uniqueKeys h)
    (hdis : ∀ p ∈ h, mapGet acc p.1 = none) :
    h.foldl (fun a p => mapSet a p.1 p.2) acc = acc ++ h := by
  induction h generalizing acc with
  | nil => simp
  | cons p t ih =>
      obtain ⟨k, v⟩ := p
      rw [List.foldl_cons]
      have hknone : mapGet acc k = none := hdis (k, v) (by simp)
      rw [mapSet_append_of_get_none acc k v hknone]
      have huniq' : uniqueKeys t := (List.pairwise_cons.mp huniq).2
      have hhead : ∀ q ∈ t, (k : GoStr) ≠ q.1 :=
        fun q hq => (List.pairwise_cons.mp huniq).1 q hq
      rw [ih (acc ++ [(k, v)]) huniq' (fun q hq => by
        rw [mapGet_append]
        have h1 : mapGet acc q.1 = none := hdis q (List.mem_cons_of_mem _ hq)
        have h2 : mapGet [(k, v)] q.1 = none := by
          have : ¬(k = q.1) := hhead q hq
          simp [mapGet, this]
        simp [h1, h2])]
      simp

theorem foldl_mapSet_of_unique {α : Type} (h : List (GoStr × α))
    (huniq : uniqueKeys h) :
    h.foldl (fun a p => mapSet a p.1 p.2) [] = h := by
  have := foldl_mapSet_append h [] huniq (fun p _ => rfl)
  simpa using this

/-- Reading the Go map built by the insertion fold: the value of the pair
inserted last wins. -/
theorem mapGet_foldl_find {α : Type} (l : List (GoStr × α))
    (acc : List (GoStr × α)) (q : GoStr) :
    mapGet (l.foldl (fun a p => mapSet a p.1 p.2) acc) q =
      ((l.reverse.find? (fun p => p.1 = q)).map (fun p => p.2)).or
        (mapGet acc q) := by
  induction l generalizing acc with
  | nil => simp
  | cons p t ih =>
      obtain ⟨k, v⟩ := p
      rw [List.foldl_cons, ih]
      rw [List.reverse_cons, List.find?_append]
      by_cases hk : k = q
      · subst hk
        cases hfind : t.reverse.find? (fun p => p.1 = k) with
        | none => simp [hfind, mapGet_mapSet, List.find?]
        | some r => simp [hfind]
      · cases hfind : t.reverse.find? (fun p => p.1 = q) with
        | none => simp [hfind, mapGet_mapSet, hk, List.find?]
        | some r => simp [hfind]

/-! ### Correspondence between the Hstore and HstoreCompat parsers -/

theorem toCompat_mapSet (a : Hstore) (k : GoStr) (v : PText) :
    toCompat (mapSet a k v) =
      mapSet (toCompat a) k (if v.valid then some v.string else none) := by
  induction a with
  | nil => simp [mapSet, toCompat]
  | cons p t ih =>
      obtain ⟨k', v'⟩ := p
      by_cases hk : k' = k <;> simp [mapSet, toCompat, hk] <;>
        simpa [toCompat] using ih

theorem parseLoop_compat (fuel : Nat) (p : HSP) (first : Bool) (acc : Hstore) :
    parseHstoreCompatLoop fuel p first (toCompat acc) =
      (parseHstoreLoop fuel p first acc).map toCompat := by
  induction fuel generalizing p first acc with
  | zero => rfl
  | succ fuel ih =>
      simp only [parseHstoreCompatLoop, parseHstoreLoop]
      by_cases hp : p.pos ≥ p.str.length
      · rw [if_pos hp, if_pos hp]
        rfl
      · rw [if_neg hp, if_neg hp]
        cases hsep : (if first then Except.ok p else p.consumePairSeparator :
            Except PErr HSP) with
        | error e => rfl
        | ok p1 =>
            dsimp only
            cases hb : p1.consumeExpectedByte 34 with
            | error e => rfl
            | ok p2 =>
                dsimp only
                cases hk : p2.consumeDoubleQuoted with
                | error e => rfl
                | ok kp =>
                    dsimp only
                    cases hs : kp.2.consumeKVSeparator with
                    | error e => rfl
                    | ok p4 =>
                        dsimp only
                        cases hv : p4.consumeDoubleQuotedOrNull with
                        | error e => rfl
                        | ok vp =>
                            dsimp only
                            rw [← toCompat_mapSet]
                            exact ih vp.2 false (mapSet acc kp.1 vp.1)

theorem parseHstoreCompat_eq (s : GoStr) :
    parseHstoreCompat s = (parseHstore s).map toCompat := by
  unfold parseHstore parseHstoreCompat
  have h : ([] : HstoreCompat) = toCompat [] := rfl
  rw [h]
  exact parseLoop_compat (s.length + 1) (newHSP s) true []

/-! ### Lemmas about the binary wire format -/

theorem getD_append_at (pre l : GoStr) (i d : Nat) (pos : Nat)
    (hpos : pos = pre.length + i) : (pre ++ l).getD pos d = l.getD i d := by
  subst hpos
  rw [List.getD_append_right _ _ _ _ (by omega)]
  congr 1
  omega

theorem readInt32_at (src pre tail : GoStr) (b0 b1 b2 b3 : Nat) (pos : Nat)
    (hsrc : src = pre ++ (b0 :: b1 :: b2 :: b3 :: tail))
    (hpos : pos = pre.length) :
    readInt32 src pos =
      (if b0 * 2 ^ 24 + b1 * 2 ^ 16 + b2 * 2 ^ 8 + b3 < 2 ^ 31 then
        ((b0 * 2 ^ 24 + b1 * 2 ^ 16 + b2 * 2 ^ 8 + b3 : Nat) : Int)
      else ((b0 * 2 ^ 24 + b1 * 2 ^ 16 + b2 * 2 ^ 8 + b3 : Nat) : Int) - 2 ^ 32) := by
  subst hsrc
  subst hpos
  unfold readInt32
  rw [getD_append_at pre _ 0 0 pre.length (by omega),
    getD_append_at pre _ 1 0 (pre.length + 1) (by omega),
    getD_append_at pre _ 2 0 (pre.length + 2) (by omega),
    getD_append_at pre _ 3 0 (pre.length + 3) (by omega)]
  rfl

theorem int32be_ofNat (n : Nat) (hn : n < 2 ^ 32) :
    int32be (n : Int) =
      [n / 2 ^ 24 % 256, n / 2 ^ 16 % 256, n / 2 ^ 8 % 256, n % 256] := by
  unfold int32be
  have h1 : ((n : Int) % 2 ^ 32).toNat = n := by omega
  rw [h1]

theorem readInt32_nat_at (src pre tail : GoStr) (n : Nat) (pos : Nat)
    (hsrc : src = pre ++ (int32be (n : Int) ++ tail)) (hpos : pos = pre.length)
    (hn : n < 2 ^ 31) :
    readInt32 src pos = (n : Int) := by
  rw [int32be_ofNat n (by omega)] at hsrc
  rw [readInt32_at src pre tail _ _ _ _ pos hsrc hpos]
  have hd : n / 2 ^ 24 % 256 * 2 ^ 24 + n / 2 ^ 16 % 256 * 2 ^ 16 +
      n / 2 ^ 8 % 256 * 2 ^ 8 + n % 256 = n := by
    omega
  rw [hd, if_pos hn]

theorem int32be_neg_one : int32be (-1) = [255, 255, 255, 255] := by
  decide

theorem readInt32_neg_one_at (src pre tail : GoStr) (pos : Nat)
    (hsrc : src = pre ++ (int32be (-1) ++ tail)) (hpos : pos = pre.length) :
    readInt32 src pos = -1 := by
  rw [int32be_neg_one] at hsrc
  rw [readInt32_at src pre tail _ _ _ _ pos hsrc hpos]
  norm_num

theorem int32be_length (n : Int) : (int32be n).length = 4 := by
  unfold int32be
  rfl

theorem goSlice_at (kvs pre x tail : GoStr) (lo : Nat) (hi : Int)
    (hkvs : kvs = pre ++ (x ++ tail)) (hlo : lo = pre.length)
    (hhi : hi = (lo : Int) + x.length) :
    goSlice kvs lo hi = some x := by
  subst hkvs
  subst hlo
  subst hhi
  unfold goSlice
  rw [if_pos (by
    constructor
    · omega
    · simp)]
  rw [List.drop_left]
  have h1 : (((pre.length : Int) + x.length) - pre.length).toNat = x.length := by
    omega
  rw [h1, List.take_left]

theorem specPairBinary_length (k : GoStr) (v : PText) :
    (specPairBinary k v).length =
      8 + k.length + (if v.valid then v.string.length else 0) := by
  cases hv : v.valid
  · simp [specPairBinary, hv, int32be_length]
    omega
  · simp [specPairBinary, hv, int32be_length]
    omega

/-- The binary reader's pair loop consumes a rendered pair list (whose
lengths fit in 31 bits) and accumulates the pairs with Go map-update
semantics. -/
theorem scanLoop_render (rest : Hstore) (src kvs : GoStr) (preSrc : GoStr)
    (acc : Hstore)
    (hsrc : src = preSrc ++ rest.flatMap (fun p => specPairBinary p.1 p.2))
    (hkvs : kvs = src.drop 4) (hpre4 : 4 ≤ preSrc.length)
    (hbound : ∀ p ∈ rest, p.1.length < 2 ^ 31 ∧ p.2.string.length < 2 ^ 31)
    (hcan : ∀ p ∈ rest, p.2.valid = false → p.2.string = []) :
    scanBinaryHstoreLoop src kvs rest.length preSrc.length acc =
      .ok (rest.foldl (fun a p => mapSet a p.1 p.2) acc) := by
  induction rest generalizing preSrc acc with
  | nil => rfl
  | cons p t ih =>
      obtain ⟨k, v⟩ := p
      obtain ⟨vs, vv⟩ := v
      have hkb : k.length < 2 ^ 31 := (hbound (k, ⟨vs, vv⟩) (by simp)).1
      have hvb : vs.length < 2 ^ 31 := (hbound (k, ⟨vs, vv⟩) (by simp)).2
      cases vv with
      | true =>
          have hsrc' : src = preSrc ++ (int32be (k.length : Int) ++ (k ++
              (int32be (vs.length : Int) ++ (vs ++
                t.flatMap (fun p => specPairBinary p.1 p.2))))) := by
            rw [hsrc]
            simp [specPairBinary]
          have hlen : src.length = preSrc.length + 8 + k.length + vs.length +
              (t.flatMap (fun p => specPairBinary p.1 p.2)).length := by
            rw [hsrc']
            simp [int32be_length]
            omega
          simp only [List.length_cons, scanBinaryHstoreLoop]
          rw [if_neg (by rw [hlen]; push_cast; omega)]
          rw [readInt32_nat_at src preSrc _ k.length preSrc.length hsrc' rfl hkb]
          rw [if_neg (by rw [hlen]; push_cast; omega)]
          have hkvs' : kvs = (preSrc.drop 4 ++ int32be (k.length : Int)) ++
              (k ++ (int32be (vs.length : Int) ++ (vs ++
                t.flatMap (fun p => specPairBinary p.1 p.2)))) := by
            rw [hkvs, hsrc', List.drop_append_of_le_length hpre4]
            simp
          rw [goSlice_at kvs (preSrc.drop 4 ++ int32be (k.length : Int)) k _
            (preSrc.length + 4 - 4)
            ((((preSrc.length + 4 : Nat) : Int)) - 4 + (k.length : Int)) hkvs'
            (by simp [int32be_length]; omega) (by push_cast; omega)]
          dsimp only
          rw [Int.toNat_natCast]
          rw [if_neg (by rw [hlen]; push_cast; omega)]
          have hsrc2 : src = (preSrc ++ int32be (k.length : Int) ++ k) ++
              (int32be (vs.length : Int) ++ (vs ++
                t.flatMap (fun p => specPairBinary p.1 p.2))) := by
            rw [hsrc']
            simp
          rw [readInt32_nat_at src (preSrc ++ int32be (k.length : Int) ++ k) _
            vs.length (preSrc.length + 4 + k.length) hsrc2
            (by simp [int32be_length]; omega) hvb]
          rw [if_pos (by positivity)]
          have hkvs2 : kvs = (preSrc.drop 4 ++ int32be (k.length : Int) ++ k ++
              int32be (vs.length : Int)) ++
              (vs ++ t.flatMap (fun p => specPairBinary p.1 p.2)) := by
            rw [hkvs, hsrc', List.drop_append_of_le_length hpre4]
            simp
          rw [goSlice_at kvs
            (preSrc.drop 4 ++ int32be (k.length : Int) ++ k ++
              int32be (vs.length : Int)) vs _
            (preSrc.length + 4 + k.length + 4 - 4)
            ((((preSrc.length + 4 + k.length + 4 : Nat) : Int)) - 4 +
              (vs.length : Int)) hkvs2
            (by simp [int32be_length]; omega) (by push_cast; omega)]
          dsimp only
          rw [Int.toNat_natCast]
          have epos : preSrc.length + 4 + k.length + 4 + vs.length =
              (preSrc ++ specPairBinary k ⟨vs, true⟩).length := by
            simp [specPairBinary_length]
            omega
          rw [epos]
          rw [ih (preSrc ++ specPairBinary k ⟨vs, true⟩) (mapSet acc k ⟨vs, true⟩)
            (by rw [hsrc]; simp) (by simp; omega)
            (fun q hq => hbound q (List.mem_cons_of_mem _ hq))
            (fun q hq => hcan q (List.mem_cons_of_mem _ hq))]
          simp
      | false =>
          have hvs : vs = [] := hcan (k, ⟨vs, false⟩) (by simp) rfl
          subst hvs
          have hsrc' : src = preSrc ++ (int32be (k.length : Int) ++ (k ++
              (int32be (-1) ++
                t.flatMap (fun p => specPairBinary p.1 p.2)))) := by
            rw [hsrc]
            simp [specPairBinary]
          have hlen : src.length = preSrc.length + 8 + k.length +
              (t.flatMap (fun p => specPairBinary p.1 p.2)).length := by
            rw [hsrc']
            simp [int32be_length]
            omega
          simp only [List.length_cons, scanBinaryHstoreLoop]
          rw [if_neg (by rw [hlen]; push_cast; omega)]
          rw [readInt32_nat_at src preSrc _ k.length preSrc.length hsrc' rfl hkb]
          rw [if_neg (by rw [hlen]; push_cast; omega)]
          have hkvs' : kvs = (preSrc.drop 4 ++ int32be (k.length : Int)) ++
              (k ++ (int32be (-1) ++
                t.flatMap (fun p => specPairBinary p.1 p.2))) := by
            rw [hkvs, hsrc', List.drop_append_of_le_length hpre4]
            simp
          rw [goSlice_at kvs (preSrc.drop 4 ++ int32be (k.length : Int)) k _
            (preSrc.length + 4 - 4)
            ((((preSrc.length + 4 : Nat) : Int)) - 4 + (k.length : Int)) hkvs'
            (by simp [int32be_length]; omega) (by push_cast; omega)]
          dsimp only
          rw [Int.toNat_natCast]
          rw [if_neg (by rw [hlen]; push_cast; omega)]
          have hsrc2 : src = (preSrc ++ int32be (k.length : Int) ++ k) ++
              (int32be (-1) ++
                t.flatMap (fun p => specPairBinary p.1 p.2)) := by
            rw [hsrc']
            simp
          rw [readInt32_neg_one_at src (preSrc ++ int32be (k.length : Int) ++ k)
            _ (preSrc.length + 4 + k.length) hsrc2
            (by simp [int32be_length]; omega)]
          rw [if_neg (by norm_num)]
          have epos : preSrc.length + 4 + k.length + 4 =
              (preSrc ++ specPairBinary k ⟨[], false⟩).length := by
            simp [specPairBinary_length]
            omega
          rw [epos]
          rw [ih (preSrc ++ specPairBinary k ⟨[], false⟩)
            (mapSet acc k ⟨[], false⟩)
            (by rw [hsrc]; simp) (by simp; omega)
            (fun q hq => hbound q (List.mem_cons_of_mem _ hq))
            (fun q hq => hcan q (List.mem_cons_of_mem _ hq))]
          simp

/-- scanLoop_render with the numeric position and count given by
equations, for use at call sites where they appear as literals. -/
theorem scanLoop_render_at (rest : Hstore) (src kvs : GoStr) (preSrc : GoStr)
    (acc : Hstore) (pos n : Nat)
    (hsrc : src = preSrc ++ rest.flatMap (fun p => specPairBinary p.1 p.2))
    (hkvs : kvs = src.drop 4) (hpre4 : 4 ≤ preSrc.length)
    (hpos : pos = preSrc.length) (hn : n = rest.length)
    (hbound : ∀ p ∈ rest, p.1.length < 2 ^ 31 ∧ p.2.string.length < 2 ^ 31)
    (hcan : ∀ p ∈ rest, p.2.valid = false → p.2.string = []) :
    scanBinaryHstoreLoop src kvs n pos acc =
      .ok (rest.foldl (fun a p => mapSet a p.1 p.2) acc) := by
  subst hpos
  subst hn
  exact scanLoop_render rest src kvs preSrc acc hsrc hkvs hpre4 hbound hcan

theorem encodeBinary_render (h : Hstore) :
    encodePlanHstoreCodecBinary_Encode (some h) [] =
      some (int32be (h.length : Int) ++
        h.flatMap (fun p => specPairBinary p.1 p.2)) := by
  show some (encodeBinaryPairs h (appendInt32 [] (toInt32 (h.length : Int)))) = _
  rw [encodeBinaryPairs_eq]
  unfold appendInt32
  rw [int32be_toInt32]
  simp

/-- The binary reader undoes the binary writer on any pair list whose
lengths fit the 32-bit wire fields. -/
theorem scanBinary_encode (h : Hstore)
    (hbound : ∀ p ∈ h, p.1.length < 2 ^ 31 ∧ p.2.string.length < 2 ^ 31)
    (hcan : ∀ p ∈ h, p.2.valid = false → p.2.string = [])
    (hcount : h.length < 2 ^ 31) :
    scanPlanBinaryHstoreToHstoreScanner_Scan
      (encodePlanHstoreCodecBinary_Encode (some h) []) =
      .ok (some (h.foldl (fun a p => mapSet a p.1 p.2) [])) := by
  rw [encodeBinary_render h]
  unfold scanPlanBinaryHstoreToHstoreScanner_Scan
  dsimp only
  rw [if_neg (by rw [List.length_append, int32be_length]; push_cast; omega)]
  rw [readInt32_nat_at _ [] (h.flatMap (fun p => specPairBinary p.1 p.2))
    h.length 0 (by simp) rfl hcount]
  rw [Int.toNat_natCast]
  rw [scanLoop_render_at h _ _ (int32be (h.length : Int)) [] 4 h.length rfl rfl
    (by simp [int32be_length]) (by simp [int32be_length]) rfl hbound hcan]

/-- Mapping a function over a binary scan outcome. -/
def ScanOut.mapVal {α β : Type} (f : α → β) : ScanOut α → ScanOut β
  | .ok v => .ok (f v)
  | .incomplete s => .incomplete s
  | .panic => .panic

theorem scanBinaryCompatLoop_eq (src kvs : GoStr) (n : Nat) :
    ∀ (rp : Nat) (acc : Hstore),
    scanBinaryCompatLoop src kvs n rp (toCompat acc) =
      (scanBinaryHstoreLoop src kvs n rp acc).mapVal toCompat := by
  induction n with
  | zero => intro rp acc; rfl
  | succ n ih =>
      intro rp acc
      simp only [scanBinaryCompatLoop, scanBinaryHstoreLoop]
      by_cases h1 : (src.length : Int) - rp < 4
      · rw [if_pos h1, if_pos h1]
        rfl
      · rw [if_neg h1, if_neg h1]
        by_cases h2 : (src.length : Int) - ((rp + 4 : Nat) : Int) <
            readInt32 src rp
        · rw [if_pos h2, if_pos h2]
          rfl
        · rw [if_neg h2, if_neg h2]
          cases hsl : goSlice kvs (rp + 4 - 4)
              (((rp + 4 : Nat) : Int) - 4 + readInt32 src rp) with
          | none => rfl
          | some key =>
              dsimp only
              by_cases h3 : (src.length : Int) -
                  ((rp + 4 + (readInt32 src rp).toNat : Nat) : Int) < 4
              · rw [if_pos h3, if_pos h3]
                rfl
              · rw [if_neg h3, if_neg h3]
                by_cases h4 : 0 ≤ readInt32 src
                    (rp + 4 + (readInt32 src rp).toNat)
                · rw [if_pos h4, if_pos h4]
                  cases hsv : goSlice kvs
                      (rp + 4 + (readInt32 src rp).toNat + 4 - 4)
                      (((rp + 4 + (readInt32 src rp).toNat + 4 : Nat) : Int) - 4 +
                        readInt32 src (rp + 4 + (readInt32 src rp).toNat)) with
                  | none => rfl
                  | some value =>
                      dsimp only
                      have hm : mapSet (toCompat acc) key (some value) =
                          toCompat (mapSet acc key ⟨value, true⟩) := by
                        rw [toCompat_mapSet]
                        simp
                      rw [hm]
                      exact ih _ (mapSet acc key ⟨value, true⟩)
                · rw [if_neg h4, if_neg h4]
                  have hm : mapSet (toCompat acc) key none =
                      toCompat (mapSet acc key ⟨[], false⟩) := by
                    rw [toCompat_mapSet]
                    simp
                  rw [hm]
                  exact ih _ (mapSet acc key ⟨[], false⟩)

theorem toCompat_toPT (hc : HstoreCompat) : toCompat (toPT hc) = hc := by
  induction hc with
  | nil => rfl
  | cons p t ih =>
      obtain ⟨k, v⟩ := p
      cases v <;> simp [toCompat, toPT] at ih ⊢ <;> exact ih

theorem uniqueKeys_toPT (hc : HstoreCompat) (h : uniqueKeys hc) :
    uniqueKeys (toPT hc) := by
  unfold uniqueKeys toPT
  rw [List.pairwise_map]
  exact h

theorem toPT_canonical (hc : HstoreCompat) :
    ∀ p ∈ toPT hc, p.2.valid = false → p.2.string = [] := by
  intro p hp
  unfold toPT at hp
  obtain ⟨q, hq, hqp⟩ := List.mem_map.mp hp
  cases hv : q.2 <;> rw [hv] at hqp <;> subst hqp <;> simp

/-- Length bounds for the compat representation. -/
def boundsCompat (hc : HstoreCompat) : Prop :=
  ∀ p ∈ hc, p.1.length < 2 ^ 31 ∧ ∀ s, p.2 = some s → s.length < 2 ^ 31

theorem toPT_bounds (hc : HstoreCompat) (h : boundsCompat hc) :
    ∀ p ∈ toPT hc, p.1.length < 2 ^ 31 ∧ p.2.string.length < 2 ^ 31 := by
  intro p hp
  unfold toPT at hp
  obtain ⟨q, hq, hqp⟩ := List.mem_map.mp hp
  obtain ⟨h1, h2⟩ := h q hq
  cases hv : q.2 with
  | none =>
      rw [hv] at hqp
      subst hqp
      exact ⟨h1, by simp⟩
  | some s =>
      rw [hv] at hqp
      subst hqp
      exact ⟨h1, h2 s hv⟩

theorem encodeBinaryCompat_render (hc : HstoreCompat) :
    encodePlanHstoreCompatCodecBinary_Encode (some hc) [] =
      encodePlanHstoreCodecBinary_Encode (some (toPT hc)) [] := by
  show some (encodeBinaryCompatPairs hc (appendInt32 [] (toInt32 (hc.length : Int)))) =
    some (encodeBinaryPairs (toPT hc)
      (appendInt32 [] (toInt32 (((toPT hc).length : Nat) : Int))))
  rw [encodeBinaryCompatPairs_eq]
  have hl : (toPT hc).length = hc.length := by simp [toPT]
  rw [hl]

/-- The compat binary reader undoes the compat binary writer. -/
theorem scanBinaryCompat_encode (hc : HstoreCompat) (hbound : boundsCompat hc)
    (hcount : hc.length < 2 ^ 31) :
    scanPlanBinaryHstoreToHstoreCompatScanner_Scan
      (encodePlanHstoreCompatCodecBinary_Encode (some hc) []) =
      .ok (some (toCompat ((toPT hc).foldl (fun a p => mapSet a p.1 p.2) []))) := by
  have hcnt : (toPT hc).length < 2 ^ 31 := by
    simpa [toPT] using hcount
  rw [encodeBinaryCompat_render, encodeBinary_render]
  unfold scanPlanBinaryHstoreToHstoreCompatScanner_Scan
  dsimp only
  rw [if_neg (by rw [List.length_append, int32be_length]; push_cast; omega)]
  rw [readInt32_nat_at _ []
    ((toPT hc).flatMap (fun p => specPairBinary p.1 p.2)) (toPT hc).length 0
    (by simp) rfl hcnt]
  rw [if_neg (by push_cast; omega)]
  rw [Int.toNat_natCast]
  have h0 : ([] : HstoreCompat) = toCompat [] := rfl
  rw [h0, scanBinaryCompatLoop_eq _ _ _ 4 []]
  rw [scanLoop_render_at (toPT hc) _ _ (int32be (((toPT hc).length : Nat) : Int))
    [] 4 (toPT hc).length rfl rfl (by simp [int32be_length])
    (by simp [int32be_length]) rfl (toPT_bounds hc hbound)
    (toPT_canonical hc)]
  rfl

theorem encodeTextCompat_render (hc : HstoreCompat) :
    encodePlanHstoreCompatCodecText_Encode (some hc) [] =
      some (joinPairsText (toPT hc)) := by
  show some (encodeTextCompatPairs hc [] true) = _
  rw [encodeTextCompatPairs_eq, encodeTextPairs_true]
  simp

/-- The compat text parser undoes the compat text writer. -/
theorem parseCompat_encode (hc : HstoreCompat) :
    scanPlanTextAnyToHstoreCompatScanner_Scan
      (encodePlanHstoreCompatCodecText_Encode (some hc) []) =
      .ok (some (toCompat ((toPT hc).foldl (fun a p => mapSet a p.1 p.2) []))) := by
  rw [encodeTextCompat_render]
  unfold scanPlanTextAnyToHstoreCompatScanner_Scan
  dsimp only
  rw [parseHstoreCompat_eq, parseHstore_render (toPT hc) (toPT_canonical hc)]
  rfl

/-! ### The 32-bit length-field overflow: a value of 2^31 bytes encodes
with a wrapped (negative) length and scans back as the absent value. -/

theorem int32be_one : int32be ((1 : Nat) : Int) = [0, 0, 0, 1] := by
  decide

theorem int32be_pow31 : int32be ((2 ^ 31 : Nat) : Int) = [128, 0, 0, 0] := by
  decide

/-- One unfolding step of the binary pair loop at remaining count 1. -/
theorem scanBinaryHstoreLoop_one (src kvs : GoStr) (rp : Nat) (acc : Hstore) :
    scanBinaryHstoreLoop src kvs 1 rp acc =
      (if (src.length : Int) - rp < 4 then .incomplete src else
       let keyLen := readInt32 src rp
       let rp1 := rp + 4
       if (src.length : Int) - rp1 < keyLen then .incomplete src else
       match goSlice kvs (rp1 - 4) ((rp1 : Int) - 4 + keyLen) with
       | none => .panic
       | some key =>
         let rp2 := rp1 + keyLen.toNat
         if (src.length : Int) - rp2 < 4 then .incomplete src else
         let valueLen := readInt32 src rp2
         let rp3 := rp2 + 4
         if 0 ≤ valueLen then
           match goSlice kvs (rp3 - 4) ((rp3 : Int) - 4 + valueLen) with
           | none => .panic
           | some value => .ok (mapSet acc key ⟨value, true⟩)
         else .ok (mapSet acc key ⟨[], false⟩)) := rfl

/-- Binary-encoding the single pair k -> v with a 2^31-byte value v and
scanning the result yields k -> absent: the 32-bit value length wraps to
a negative number, which the reader takes as the NULL marker. -/
theorem scanBinary_bigvalue (v : GoStr) (hv : v.length = 2 ^ 31) :
    scanPlanBinaryHstoreToHstoreScanner_Scan
      (encodePlanHstoreCodecBinary_Encode (some [([107], ⟨v, true⟩)]) []) =
      .ok (some [([107], ⟨[], false⟩)]) := by
  have henc : encodePlanHstoreCodecBinary_Encode (some [([107], ⟨v, true⟩)]) [] =
      some (0 :: 0 :: 0 :: 1 :: 0 :: 0 :: 0 :: 1 :: 107 :: 128 :: 0 :: 0 :: 0 :: v) := by
    rw [encodeBinary_render]
    simp only [List.flatMap_cons, List.flatMap_nil, specPairBinary]
    rw [show (([([107], (⟨v, true⟩ : PText))] : Hstore).length : Int) =
      ((1 : Nat) : Int) by norm_num]
    rw [show ((List.length ([107] : GoStr)) : Int) = ((1 : Nat) : Int) by norm_num]
    rw [int32be_one]
    rw [if_pos trivial]
    rw [show ((List.length v : Nat) : Int) = ((2 ^ 31 : Nat) : Int) by rw [hv]]
    rw [int32be_pow31]
    simp
  rw [henc]
  unfold scanPlanBinaryHstoreToHstoreScanner_Scan
  dsimp only
  have hlen : (0 :: 0 :: 0 :: 1 :: 0 :: 0 :: 0 :: 1 :: 107 :: 128 :: 0 :: 0 ::
      0 :: v : GoStr).length = 13 + 2 ^ 31 := by
    simp [hv]
  rw [if_neg (by rw [hlen]; push_cast; norm_num)]
  rw [readInt32_at _ [] (0 :: 0 :: 0 :: 1 :: 107 :: 128 :: 0 :: 0 :: 0 :: v)
    0 0 0 1 0 (by simp) rfl]
  norm_num
  rw [scanBinaryHstoreLoop_one]
  rw [if_neg (by rw [hlen]; push_cast; norm_num)]
  rw [readInt32_at _ [0, 0, 0, 1] (107 :: 128 :: 0 :: 0 :: 0 :: v)
    0 0 0 1 4 (by simp) rfl]
  norm_num
  rw [if_neg (by rw [hv]; push_cast; norm_num)]
  rw [goSlice_at _ ([0, 0, 0, 1] : GoStr) [107] (128 :: 0 :: 0 :: 0 :: v)
    4 5 (by simp) (by simp) (by norm_num)]
  dsimp only
  rw [if_neg (by rw [hv]; push_cast; norm_num)]
  rw [readInt32_at _ [0, 0, 0, 1, 0, 0, 0, 1, 107] v 128 0 0 0 9 (by simp) rfl]
  norm_num
  rfl

/-! ### Further spec-side correspondence lemmas used by the claims -/

theorem flatMapCompat_eq (hc : HstoreCompat) :
    hc.flatMap (fun p => specPairBinaryCompat p.1 p.2) =
      (toPT hc).flatMap (fun p => specPairBinary p.1 p.2) := by
  induction hc with
  | nil => rfl
  | cons p t ih =>
      obtain ⟨k, v⟩ := p
      cases v with
      | none =>
          rw [show toPT ((k, none) :: t) = (k, ⟨[], false⟩) :: toPT t from rfl,
            List.flatMap_cons, List.flatMap_cons, ih]
          rfl
      | some s =>
          rw [show toPT ((k, some s) :: t) = (k, ⟨s, true⟩) :: toPT t from rfl,
            List.flatMap_cons, List.flatMap_cons, ih]
          rfl

theorem specBinaryRenderCompat_eq (hc : HstoreCompat) :
    specBinaryRenderCompat hc = specBinaryRender (toPT hc) := by
  unfold specBinaryRenderCompat specBinaryRender
  rw [flatMapCompat_eq]
  have hl : (toPT hc).length = hc.length := by simp [toPT]
  rw [hl]

/-! ### The claims -/

/-- C1: refuted — the binary scanners do NOT check that enough bytes remain
before consuming the value bytes (and a negative declared key length slices
with lo > hi), so binary input truncated mid-value-bytes panics instead of
returning the "incomplete" error, in both the Hstore and the HstoreCompat
scanner; the HstoreCompat scanner additionally panics on a negative declared
pair count (make([]string, n)), where the Hstore scanner returns the empty
map. The failing input [0,0,0,1, 0,0,0,1, 107, 0,0,0,5, 118] declares one
pair, key "k", value length 5, but carries a single value byte. -/
theorem C1_binary_truncation_panics :
    scanPlanBinaryHstoreToHstoreScanner_Scan
      (some [0, 0, 0, 1, 0, 0, 0, 1, 107, 0, 0, 0, 5, 118]) = .panic ∧
    scanPlanBinaryHstoreToHstoreCompatScanner_Scan
      (some [0, 0, 0, 1, 0, 0, 0, 1, 107, 0, 0, 0, 5, 118]) = .panic ∧
    scanPlanBinaryHstoreToHstoreScanner_Scan
      (some [0, 0, 0, 1, 255, 255, 255, 255]) = .panic ∧
    scanPlanBinaryHstoreToHstoreCompatScanner_Scan
      (some [0, 0, 0, 1, 255, 255, 255, 255]) = .panic ∧
    scanPlanBinaryHstoreToHstoreScanner_Scan
      (some [255, 255, 255, 255]) = .ok (some []) ∧
    scanPlanBinaryHstoreToHstoreCompatScanner_Scan
      (some [255, 255, 255, 255]) = .panic := by
  refine ⟨rfl, rfl, rfl, rfl, rfl, rfl⟩

/-- C2 (amended): the encode/decode round-trip holds for both wire formats
and both representation variants once the mapping's sizes fit the 32-bit
wire fields (every key and value shorter than 2^31 bytes, fewer than 2^31
pairs) and, for the Hstore variant, every absent value carries the empty
string (the canonical form decoding produces). Without the size bound the
round-trip fails: see the counterexample, where a 2^31-byte value wraps the
32-bit length negative and scans back as the absent value. -/
theorem C2_roundtrip_bounded (h : Hstore) (hc : HstoreCompat)
    (huniq : uniqueKeys h) (hcan : canonicalAbsents h) (hnul : noNulBytes h)
    (hbound : ∀ p ∈ h, p.1.length < 2 ^ 31 ∧ p.2.string.length < 2 ^ 31)
    (hcount : h.length < 2 ^ 31)
    (huniqc : uniqueKeys hc) (hboundc : boundsCompat hc)
    (hcountc : hc.length < 2 ^ 31) :
    scanPlanTextAnyToHstoreScanner_Scan
      (encodePlanHstoreCodecText_Encode (some h) []) = .ok (some h) ∧
    scanPlanBinaryHstoreToHstoreScanner_Scan
      (encodePlanHstoreCodecBinary_Encode (some h) []) = .ok (some h) ∧
    scanPlanTextAnyToHstoreCompatScanner_Scan
      (encodePlanHstoreCompatCodecText_Encode (some hc) []) = .ok (some hc) ∧
    scanPlanBinaryHstoreToHstoreCompatScanner_Scan
      (encodePlanHstoreCompatCodecBinary_Encode (some hc) []) =
      .ok (some hc) := by
  refine ⟨?_, ?_, ?_, ?_⟩
  · have he : encodePlanHstoreCodecText_Encode (some h) [] =
        some (joinPairsText h) := by
      show some (encodeTextPairs h [] true) = _
      rw [encodeTextPairs_true]
      simp
    rw [he]
    unfold scanPlanTextAnyToHstoreScanner_Scan
    dsimp only
    rw [parseHstore_render h hcan, foldl_mapSet_of_unique h huniq]
  · rw [scanBinary_encode h hbound hcan hcount,
      foldl_mapSet_of_unique h huniq]
  · rw [parseCompat_encode hc,
      foldl_mapSet_of_unique (toPT hc) (uniqueKeys_toPT hc huniqc),
      toCompat_toPT]
  · rw [scanBinaryCompat_encode hc hboundc hcountc,
      foldl_mapSet_of_unique (toPT hc) (uniqueKeys_toPT hc huniqc),
      toCompat_toPT]

/-- C2 witness: the round-trip theorem applied to the one-pair mappings
k -> v (Hstore) and k -> v (HstoreCompat). -/
theorem C2_roundtrip_bounded_witness :
    scanPlanTextAnyToHstoreScanner_Scan
      (encodePlanHstoreCodecText_Encode (some [([107], ⟨[118], true⟩)]) []) =
      .ok (some [([107], ⟨[118], true⟩)]) ∧
    scanPlanBinaryHstoreToHstoreScanner_Scan
      (encodePlanHstoreCodecBinary_Encode (some [([107], ⟨[118], true⟩)]) []) =
      .ok (some [([107], ⟨[118], true⟩)]) ∧
    scanPlanTextAnyToHstoreCompatScanner_Scan
      (encodePlanHstoreCompatCodecText_Encode (some [([107], some [118])]) []) =
      .ok (some [([107], some [118])]) ∧
    scanPlanBinaryHstoreToHstoreCompatScanner_Scan
      (encodePlanHstoreCompatCodecBinary_Encode (some [([107], some [118])]) []) =
      .ok (some [([107], some [118])]) :=
  C2_roundtrip_bounded [([107], ⟨[118], true⟩)] [([107], some [118])]
    (by simp [uniqueKeys])
    (by
      intro p hp hv
      simp only [List.mem_singleton] at hp
      subst hp
      simp at hv)
    (by
      intro p hp
      simp only [List.mem_singleton] at hp
      subst hp
      exact ⟨by decide, by decide⟩)
    (by decide) (by decide)
    (by simp [uniqueKeys])
    (by
      intro p hp
      simp only [List.mem_singleton] at hp
      subst hp
      refine ⟨by decide, ?_⟩
      intro s hs
      have h1 : s = [118] := by
        injection hs with h2
        exact h2.symm
      subst h1
      decide)
    (by decide)

/-- C2 counterexample: the mapping k -> "aaaa...a" (2^31 bytes) has unique
keys, no NUL byte and a valid value, yet binary-encoding it and scanning the
result yields k -> absent, not the original mapping: the value's 32-bit
length field wraps negative. -/
theorem C2_roundtrip_counterexample :
    uniqueKeys [([107], (⟨List.replicate (2 ^ 31) 97, true⟩ : PText))] ∧
    noNulBytes [([107], ⟨List.replicate (2 ^ 31) 97, true⟩)] ∧
    scanPlanBinaryHstoreToHstoreScanner_Scan
      (encodePlanHstoreCodecBinary_Encode
        (some [([107], ⟨List.replicate (2 ^ 31) 97, true⟩)]) []) =
      .ok (some [([107], ⟨[], false⟩)]) ∧
    ([([107], (⟨[], false⟩ : PText))] : Hstore) ≠
      [([107], ⟨List.replicate (2 ^ 31) 97, true⟩)] := by
  refine ⟨?_, ?_, ?_, ?_⟩
  · exact .cons (fun b hb => absurd hb (List.not_mem_nil b)) .nil
  · intro p hp
    simp only [List.mem_singleton] at hp
    subst hp
    refine ⟨by decide, ?_⟩
    intro h0
    rw [List.mem_replicate] at h0
    exact absurd h0.2 (by decide)
  · exact scanBinary_bigvalue (List.replicate (2 ^ 31) 97)
      (by rw [List.length_replicate])
  · intro heq
    injection heq with hpair htail
    injection hpair with hkey hval
    injection hval with hstring hvalid
    exact absurd hvalid (by decide)

/-- C3: for every non-nil mapping, in both representation variants, the text
encoder's output is exactly the spec-side render: each key and each present
value unconditionally double-quoted with quoteArrayReplace (which escapes
exactly backslash and double quote), an absent value as the bare 4 bytes
NULL, and pairs joined by the exact 2-byte comma-space separator with no
trailing separator. -/
theorem C3_text_encoder_renders :
    (∀ h : Hstore, encodePlanHstoreCodecText_Encode (some h) [] =
      some (joinPairsText h)) ∧
    (∀ hc : HstoreCompat, encodePlanHstoreCompatCodecText_Encode (some hc) [] =
      some (joinPairsTextCompat hc)) := by
  constructor
  · intro h
    show some (encodeTextPairs h [] true) = _
    rw [encodeTextPairs_true]
    simp
  · intro hc
    rw [encodeTextCompat_render, joinPairsTextCompat_eq]

/-- C4: parsing "k"=>NULL yields k -> absent while parsing "k"=>"NULL"
yields k -> the 4-byte string NULL; the unquoted literal is recognized only
as the exact case-sensitive bytes NULL (lowercase null fails on its first
byte, NULl fails on its last byte), and in general consumeDoubleQuotedOrNull
turns the exact 4 bytes 78 85 76 76 at the current position into the absent
value. -/
theorem C4_null_literal :
    parseHstore [34, 107, 34, 61, 62, 78, 85, 76, 76] =
      .ok [([107], ⟨[], false⟩)] ∧
    parseHstore [34, 107, 34, 61, 62, 34, 78, 85, 76, 76, 34] =
      .ok [([107], ⟨[78, 85, 76, 76], true⟩)] ∧
    parseHstore [34, 107, 34, 61, 62, 110, 117, 108, 108] =
      .error (.unexpectedByte 110 34) ∧
    parseHstore [34, 107, 34, 61, 62, 78, 85, 76, 108] =
      .error (.unexpectedByte 108 76) ∧
    (∀ (str pre suffix : GoStr) (pos : Nat) (nb : Option Nat),
      str = pre ++ 78 :: 85 :: 76 :: 76 :: suffix → pos = pre.length →
      HSP.consumeDoubleQuotedOrNull ⟨str, pos, nb⟩ =
        .ok (⟨[], false⟩, ⟨str, pos + 4, nb⟩)) := by
  refine ⟨rfl, rfl, rfl, rfl, ?_⟩
  intro str pre suffix pos nb hstr hpos
  exact consumeDoubleQuotedOrNull_null_at str pos nb pre suffix hstr hpos

/-- C5: parsing a rendered pair list always succeeds and builds the result
with Go map-update semantics, so for any key the value of the pair parsed
last wins (silent overwrite); in particular parsing "k"=>"1", "k"=>"2"
yields k -> "2". -/
theorem C5_duplicate_last_wins (h : Hstore) (hcan : canonicalAbsents h)
    (k : GoStr) :
    (∃ m, parseHstore (joinPairsText h) = .ok m ∧ mapGet m k = lastVal h k) ∧
    parseHstore
      [34, 107, 34, 61, 62, 34, 49, 34, 44, 32, 34, 107, 34, 61, 62, 34, 50, 34] =
      .ok [([107], ⟨[50], true⟩)] := by
  constructor
  · refine ⟨h.foldl (fun a p => mapSet a p.1 p.2) [],
      parseHstore_render h hcan, ?_⟩
    rw [mapGet_foldl_find]
    show (lastVal h k).or (mapGet [] k) = lastVal h k
    cases lastVal h k <;> rfl
  · rfl

/-- C5 witness: the duplicate-key theorem applied to the two-pair list
k -> "1", k -> "2" at the key k. -/
theorem C5_duplicate_last_wins_witness :
    (∃ m, parseHstore
        (joinPairsText [([107], ⟨[49], true⟩), ([107], ⟨[50], true⟩)]) =
        .ok m ∧
      mapGet m [107] =
        lastVal [([107], ⟨[49], true⟩), ([107], ⟨[50], true⟩)] [107]) ∧
    parseHstore
      [34, 107, 34, 61, 62, 34, 49, 34, 44, 32, 34, 107, 34, 61, 62, 34, 50, 34] =
      .ok [([107], ⟨[50], true⟩)] :=
  C5_duplicate_last_wins [([107], ⟨[49], true⟩), ([107], ⟨[50], true⟩)]
    (by
      intro p hp hv
      simp only [List.mem_cons, List.not_mem_nil, or_false] at hp
      rcases hp with h1 | h1 <;> subst h1 <;> simp at hv)
    [107]

/-- C6: a nil source scans to the nil (absent) mapping in every format and
variant; the empty text input scans to the empty, non-absent mapping; and on
the encode side a nil mapping encodes to nil (the protocol-level NULL
signal) while the empty mapping text-encodes to the empty byte sequence, so
absent and empty stay distinguishable in both directions. -/
theorem C6_nil_vs_empty :
    scanPlanTextAnyToHstoreScanner_Scan none = .ok none ∧
    scanPlanBinaryHstoreToHstoreScanner_Scan none = .ok none ∧
    scanPlanTextAnyToHstoreCompatScanner_Scan none = .ok none ∧
    scanPlanBinaryHstoreToHstoreCompatScanner_Scan none = .ok none ∧
    scanPlanTextAnyToHstoreScanner_Scan (some []) = .ok (some []) ∧
    scanPlanTextAnyToHstoreCompatScanner_Scan (some []) = .ok (some []) ∧
    encodePlanHstoreCodecText_Encode none [] = none ∧
    encodePlanHstoreCompatCodecText_Encode none [] = none ∧
    encodePlanHstoreCodecBinary_Encode none [] = none ∧
    encodePlanHstoreCompatCodecBinary_Encode none [] = none ∧
    encodePlanHstoreCodecText_Encode (some []) [] = some [] ∧
    encodePlanHstoreCompatCodecText_Encode (some []) [] = some [] := by
  refine ⟨rfl, rfl, rfl, rfl, rfl, rfl, rfl, rfl, rfl, rfl, rfl, rfl⟩

/-- C7 (amended): a present byte deviating from an expected separator byte
fails with an error naming the expected and the found byte; end of input
inside a quoted string fails with the "found end before closing
double-quote" error; end of input where a value was expected fails with the
"found end instead of value" error; but end of input where a separator's two
bytes were expected fails with the generic "unexpected end of string" error,
which does not name what was expected. -/
theorem C7_separator_and_end_errors (str : GoStr) (pos : Nat)
    (nb : Option Nat) (one two : Nat) :
    (pos + 2 > str.length →
      HSP.consumeExpected2 ⟨str, pos, nb⟩ one two =
        .error .unexpectedEndOfString) ∧
    (¬pos + 2 > str.length → str.getD pos 0 ≠ one →
      HSP.consumeExpected2 ⟨str, pos, nb⟩ one two =
        .error (.unexpectedByte (str.getD pos 0) one)) ∧
    (¬pos + 2 > str.length → str.getD pos 0 = one →
      str.getD (pos + 1) 0 ≠ two →
      HSP.consumeExpected2 ⟨str, pos, nb⟩ one two =
        .error (.unexpectedByte (str.getD (pos + 1) 0) two)) ∧
    (indexByteFrom str pos 34 = none →
      HSP.consumeDoubleQuoted ⟨str, pos, nb⟩ = .error .eosInQuoted) ∧
    (pos ≥ str.length →
      HSP.consumeDoubleQuotedOrNull ⟨str, pos, nb⟩ =
        .error .endInsteadOfValue) ∧
    errNamesExpected (.unexpectedByte (str.getD pos 0) one) = true ∧
    errNamesExpected .eosInQuoted = true ∧
    errNamesExpected .endInsteadOfValue = true ∧
    errNamesExpected .unexpectedEndOfString = false := by
  refine ⟨?_, ?_, ?_, ?_, ?_, rfl, rfl, rfl, rfl⟩
  · intro hgt
    unfold HSP.consumeExpected2
    dsimp only
    rw [if_pos hgt]
  · intro hle hne
    unfold HSP.consumeExpected2
    dsimp only
    rw [if_neg hle, if_pos hne]
  · intro hle heq hne2
    unfold HSP.consumeExpected2
    dsimp only
    rw [if_neg hle, if_neg (not_not_intro heq), if_pos hne2]
  · intro hn
    unfold HSP.consumeDoubleQuoted
    dsimp only
    rw [hn]
  · intro hge
    unfold HSP.consumeDoubleQuotedOrNull
    dsimp only
    rw [if_pos hge]

/-- C7 counterexample: the input "a"=>"b", ends where the second pair
separator byte was expected, and the parse fails with the generic
"unexpected end of string" error, which does not name the expected
separator — against the original claim that every end-of-input error names
what was expected. -/
theorem C7_end_error_unnamed :
    parseHstore [34, 97, 34, 61, 62, 34, 98, 34, 44] =
      .error .unexpectedEndOfString ∧
    errNamesExpected .unexpectedEndOfString = false :=
  ⟨rfl, rfl⟩

/-- C8: for every non-nil mapping, in both representation variants, the
binary encoder's output is exactly the spec-side render: the big-endian
32-bit pair count, then per pair the 32-bit key length and raw key bytes,
and the 32-bit value length and raw value bytes for a present value or the
length -1 and no bytes for an absent one, with no escaping. -/
theorem C8_binary_encoder_renders :
    (∀ h : Hstore, encodePlanHstoreCodecBinary_Encode (some h) [] =
      some (specBinaryRender h)) ∧
    (∀ hc : HstoreCompat, encodePlanHstoreCompatCodecBinary_Encode (some hc) [] =
      some (specBinaryRenderCompat hc)) := by
  constructor
  · intro h
    rw [encodeBinary_render]
    rfl
  · intro hc
    rw [encodeBinaryCompat_render, encodeBinary_render,
      specBinaryRenderCompat_eq]
    rfl

/-- C9: refuted in the HstoreCompat.Value leg — Hstore.Value returns the
text encoding (and SQL NULL for nil), both Scan adapters accept nil and a
text string and reject any other type with a "cannot scan" error naming the
type, and HstoreCompat.Value of nil is SQL NULL; but HstoreCompat.Value of
every NON-nil mapping panics: it calls HstoreCodec{}.PlanEncode (the Hstore
codec, not the HstoreCompat one), whose HstoreValuer check fails for an
HstoreCompat value, so the plan is nil and calling Encode on it panics
instead of returning the text encoding. -/
theorem C9_sql_adapters :
    Hstore_Value none = .ok none ∧
    Hstore_Value (some [([107], ⟨[118], true⟩)]) =
      .ok (some [34, 107, 34, 61, 62, 34, 118, 34]) ∧
    Hstore_Scan .null = .ok none ∧
    Hstore_Scan (.str [34, 107, 34, 61, 62, 78, 85, 76, 76]) =
      .ok (some [([107], ⟨[], false⟩)]) ∧
    Hstore_Scan (.other "int") = .error (.cannotScan "int") ∧
    HstoreCompat_Scan .null = .ok none ∧
    HstoreCompat_Scan (.str [34, 107, 34, 61, 62, 78, 85, 76, 76]) =
      .ok (some [([107], none)]) ∧
    HstoreCompat_Scan (.other "int") = .error (.cannotScan "int") ∧
    HstoreCompat_Value none = .ok none ∧
    HstoreCompat_Value (some [([107], some [118])]) = .panic ∧
    (∀ hc : HstoreCompat, HstoreCompat_Value (some hc) = .panic) := by
  refine ⟨rfl, rfl, rfl, rfl, rfl, rfl, rfl, rfl, rfl, rfl, ?_⟩
  intro hc
  rfl

/-- C10: for every non-nil source in either wire format,
HstoreCompatCodec.DecodeValue returns the "PlanScan did not find a plan"
error and no mapping — it plans a scan into a *Hstore target, which does not
satisfy the HstoreCompatScanner capability its own PlanScan requires — and
for a nil source it returns nil with no error. -/
theorem C10_decode_value_no_plan :
    (∀ (f : Fmt) (s : GoStr), HstoreCompatCodec_DecodeValue f (some s) =
      .error .planScanNotFound) ∧
    (∀ f : Fmt, HstoreCompatCodec_DecodeValue f none = .ok none) := by
  constructor
  · intro f s
    cases f <;> rfl
  · intro f
    cases f <;> rfl

end Pgxtypefaster
